import Mathlib

set_option maxRecDepth 2048

/-!
Verification of the authentication-state store and JWT claim extractor of
MyCliApp (src/mycli.py) against its natural-language specification.

The development shallowly embeds the relevant Python code:

* `Json` models the values produced by the Python `json` module.  Numbers are
  kept as their source lexeme (a `String`): the claims under study never
  depend on numeric values, and this sidesteps binary floating point, whose
  exact semantics is outside the embedding.  Python strings are modelled by
  Lean `String` (sequences of Unicode scalar values); the one gap is lone
  surrogate code units, which Python strings can carry (for instance from a
  lone `\uD800` escape accepted by `json.loads`) and Lean `Char` cannot;
  the parser below treats those as a decode failure.  No claim exercises
  such inputs.
* `jsonLoads` / `jsonDumps` model `json.loads` (the default C scanner,
  `strict=True`) and `json.dump(..., indent=2)` (default `ensure_ascii`).
* `urlsafe_b64decode` models `base64.urlsafe_b64decode` on `str` input,
  including the non-strict `binascii.a2b_base64` tolerance for skipped
  characters and positional padding, which the probe semantics of the
  function depend on.
* The auth-state dictionary `_auth_state` of mycli.py is modelled by
  `AuthState`; file and I/O effects are made explicit (the backing file is
  an `Option String`, injected flags model `IOError` on read/write and a
  failure of `CONFIG_DIR.mkdir`).  An uncaught Python exception is
  `Except.error ()`.
-/

namespace MyCli

/-- A value produced by the Python `json` module.  `num` keeps the source
lexeme of the number (see the file comment). -/
inductive Json where
  | null
  | bool (b : Bool)
  | num (lexeme : String)
  | str (s : String)
  | arr (xs : List Json)
  | obj (kvs : List (String × Json))
deriving Inhabited, Repr

mutual
def jsonBeq : Json → Json → Bool
  | Json.null, Json.null => true
  | Json.bool a, Json.bool b => a == b
  | Json.num a, Json.num b => a == b
  | Json.str a, Json.str b => a == b
  | Json.arr xs, Json.arr ys => jsonBeqL xs ys
  | Json.obj xs, Json.obj ys => jsonBeqK xs ys
  | _, _ => false
def jsonBeqL : List Json → List Json → Bool
  | [], [] => true
  | x :: xs, y :: ys => jsonBeq x y && jsonBeqL xs ys
  | _, _ => false
def jsonBeqK : List (String × Json) → List (String × Json) → Bool
  | [], [] => true
  | (k1, v1) :: xs, (k2, v2) :: ys => k1 == k2 && jsonBeq v1 v2 && jsonBeqK xs ys
  | _, _ => false
end

mutual
theorem jsonBeq_iff : ∀ a b : Json, jsonBeq a b = true ↔ a = b
  | Json.null, b => by cases b <;> simp [jsonBeq]
  | Json.bool x, b => by cases b <;> simp [jsonBeq]
  | Json.num x, b => by cases b <;> simp [jsonBeq]
  | Json.str x, b => by cases b <;> simp [jsonBeq]
  | Json.arr xs, b => by
      cases b <;> simp [jsonBeq]
      exact jsonBeqL_iff xs _
  | Json.obj xs, b => by
      cases b <;> simp [jsonBeq]
      exact jsonBeqK_iff xs _
theorem jsonBeqL_iff : ∀ xs ys : List Json, jsonBeqL xs ys = true ↔ xs = ys
  | [], ys => by cases ys <;> simp [jsonBeqL]
  | x :: xs, ys => by
      cases ys with
      | nil => simp [jsonBeqL]
      | cons y ys => simp [jsonBeqL, jsonBeq_iff x y, jsonBeqL_iff xs ys]
theorem jsonBeqK_iff : ∀ xs ys : List (String × Json), jsonBeqK xs ys = true ↔ xs = ys
  | [], ys => by cases ys <;> simp [jsonBeqK]
  | (k1, v1) :: xs, ys => by
      cases ys with
      | nil => simp [jsonBeqK]
      | cons y ys =>
          obtain ⟨k2, v2⟩ := y
          simp [jsonBeqK, jsonBeq_iff v1 v2, jsonBeqK_iff xs ys, and_assoc]
end

instance : DecidableEq Json := fun a b =>
  decidable_of_iff (jsonBeq a b = true) (jsonBeq_iff a b)

/-- Look a key up in a Python dict modelled as an association list.  The
lists this is applied to always have pairwise distinct keys (as a Python
dict does), so first match equals dict lookup. -/
def dget : List (String × Json) → String → Option Json
  | [], _ => none
  | (k, v) :: rest, key => if k = key then some v else dget rest key

/-- Python dict item assignment `d[key] = v`: replace in place if the key is
present, append otherwise (insertion order is preserved). -/
def dset : List (String × Json) → String → Json → List (String × Json)
  | [], key, v => [(key, v)]
  | (k, w) :: rest, key, v =>
      if k = key then (key, v) :: rest else (k, w) :: dset rest key v

/-- Build a Python dict from parsed members by repeated assignment: a later
duplicate key overwrites the value but keeps the first position, exactly as
`json.loads` builds its object dicts. -/
def buildDict (ms : List (String × Json)) : List (String × Json) :=
  ms.foldl (fun acc kv => dset acc kv.1 kv.2) []

/-- Keys are pairwise distinct (the invariant of every modelled dict). -/
def keysFresh : List (String × Json) → Bool
  | [] => true
  | (k, _) :: rest => (dget rest k).isNone && keysFresh rest

/-! ## The scanner of `json.loads` (CPython C scanner, strict mode) -/

def isWsChar (c : Char) : Bool := c = ' ' || c = '\t' || c = '\n' || c = '\r'

def skipWs : List Char → List Char
  | c :: cs => if isWsChar c then skipWs cs else c :: cs
  | [] => []

def isDigitChar (c : Char) : Bool := '0' ≤ c && c ≤ '9'

def obraceC : Char := Char.ofNat 123
def cbraceC : Char := Char.ofNat 125

def hexVal (c : Char) : Option Nat :=
  if '0' ≤ c && c ≤ '9' then some (c.toNat - 48)
  else if 'a' ≤ c && c ≤ 'f' then some (c.toNat - 97 + 10)
  else if 'A' ≤ c && c ≤ 'F' then some (c.toNat - 65 + 10)
  else none

def hex4 (a b c d : Char) : Option Nat := do
  let va ← hexVal a
  let vb ← hexVal b
  let vc ← hexVal c
  let vd ← hexVal d
  return ((va * 16 + vb) * 16 + vc) * 16 + vd

/-- Short escapes accepted after a backslash in a JSON string. -/
def escMap : Char → Option Char
  | '"' => some '"'
  | '\\' => some '\\'
  | '/' => some '/'
  | 'b' => some (Char.ofNat 8)
  | 'f' => some (Char.ofNat 12)
  | 'n' => some '\n'
  | 'r' => some '\r'
  | 't' => some '\t'
  | _ => none

/-- Four hex digits at the head of the input. -/
def hex4At : List Char → Option (Nat × List Char)
  | a :: b :: c :: d :: rest =>
      match hex4 a b c d with
      | some n => some (n, rest)
      | none => none
  | _ => none

/-- The scalar value a high/low surrogate escape pair encodes. -/
def surrogateChar (n m : Nat) : Char :=
  Char.ofNat (0x10000 + (n - 0xD800) * 0x400 + (m - 0xDC00))

/-- A `\\uXXXX` escape after the `\\u` has been consumed: exactly four hex
digits; a high surrogate must be followed by a low-surrogate escape, and the
pair is recombined.  A lone surrogate escape, which Python keeps as a lone
surrogate code unit, is modelled as a failure (see the file comment). -/
def parseU (cs : List Char) : Option (Char × List Char) :=
  match hex4At cs with
  | none => none
  | some (n, rest3) =>
      if 0xD800 ≤ n && n ≤ 0xDBFF then
        match rest3 with
        | e2 :: u2 :: rest3b =>
            if e2 = '\\' && u2 = 'u' then
              match hex4At rest3b with
              | none => none
              | some (m, rest4) =>
                  if 0xDC00 ≤ m && m ≤ 0xDFFF then
                    some (surrogateChar n m, rest4)
                  else none
            else none
        | _ => none
      else if 0xDC00 ≤ n && n ≤ 0xDFFF then none
      else some (Char.ofNat n, rest3)

/-- One step of `c_scanstring` with `strict=True`: the closing quote
(`some (none, rest)`), or one decoded character (`some (some ch, rest)`).
Raw control characters below 0x20 are rejected. -/
def nextStrChar : List Char → Option (Option Char × List Char)
  | [] => none
  | c :: rest =>
      if c = '"' then some (none, rest)
      else if c = '\\' then
        match rest with
        | [] => none
        | e :: rest2 =>
            if e = 'u' then
              match parseU rest2 with
              | some (ch, rest3) => some (some ch, rest3)
              | none => none
            else
              match escMap e with
              | some ch => some (some ch, rest2)
              | none => none
      else if c.toNat < 0x20 then none
      else some (some c, rest)

theorem hex4At_length (cs rest : List Char) (n : Nat) (h : hex4At cs = some (n, rest)) :
    rest.length + 4 = cs.length := by
  rcases cs with _ | ⟨a, _ | ⟨b, _ | ⟨c, _ | ⟨d, r⟩⟩⟩⟩
  · cases h
  · cases h
  · cases h
  · cases h
  · simp only [hex4At] at h
    cases hh : hex4 a b c d with
    | none => rw [hh] at h; cases h
    | some m => rw [hh] at h; cases h; simp

theorem parseU_length (cs rest : List Char) (ch : Char) (h : parseU cs = some (ch, rest)) :
    rest.length ≤ cs.length := by
  simp only [parseU] at h
  cases hh : hex4At cs with
  | none => rw [hh] at h; cases h
  | some nr =>
      obtain ⟨n, rest3⟩ := nr
      have hlen3 := hex4At_length cs rest3 n hh
      rw [hh] at h
      simp only at h
      split at h
      · rcases rest3 with _ | ⟨e2, _ | ⟨u2, rest3b⟩⟩
        · cases h
        · cases h
        · simp only at h
          split at h
          · cases hh2 : hex4At rest3b with
            | none => rw [hh2] at h; cases h
            | some mr =>
                obtain ⟨m, rest4⟩ := mr
                have hlen4 := hex4At_length rest3b rest4 m hh2
                rw [hh2] at h
                simp only at h
                simp only [List.length_cons] at hlen3
                rw [Option.ite_none_right_eq_some, Option.some.injEq, Prod.mk.injEq] at h
                obtain ⟨-, -, hr⟩ := h
                subst hr
                omega
          · cases h
      · split at h
        · cases h
        · cases h
          omega

theorem nextStrChar_length (cs rest : List Char) (x : Option Char)
    (h : nextStrChar cs = some (x, rest)) : rest.length < cs.length := by
  rcases cs with _ | ⟨c, rest0⟩
  · cases h
  · simp only [nextStrChar] at h
    split at h
    · cases h; simp
    · split at h
      · rcases rest0 with _ | ⟨e, rest2⟩
        · cases h
        · simp only at h
          split at h
          · cases hp : parseU rest2 with
            | none => rw [hp] at h; cases h
            | some cr =>
                obtain ⟨ch, rest3⟩ := cr
                have := parseU_length rest2 rest3 ch hp
                rw [hp] at h
                cases h
                simp only [List.length_cons]
                omega
          · cases he : escMap e with
            | none => rw [he] at h; cases h
            | some ch2 =>
                rw [he] at h
                cases h
                simp only [List.length_cons]
                omega
      · split at h
        · cases h
        · cases h
          simp

/-- Body of a JSON string after the opening quote: decode characters one
step at a time until the closing quote. -/
def parseStringBody (fuel : Nat) (acc : List Char) (cs : List Char) :
    Option (String × List Char) :=
  match fuel with
  | 0 => none
  | fuel + 1 =>
      match nextStrChar cs with
      | none => none
      | some (none, rest) => some (String.mk acc.reverse, rest)
      | some (some ch, rest) => parseStringBody fuel (ch :: acc) rest

/-- Longest prefix of decimal digits. -/
def spanDigits : List Char → List Char × List Char
  | c :: cs =>
      if isDigitChar c then
        let (ds, r) := spanDigits cs
        (c :: ds, r)
      else ([], c :: cs)
  | [] => ([], [])

/-- Exponent tail after `e`/`E`: optional sign, then at least one digit;
no match means the exponent group is not taken (regex backtracking). -/
def expTail (cs : List Char) : Option (List Char × List Char) :=
  match cs with
  | s :: r =>
      if s = '+' || s = '-' then
        match spanDigits r with
        | ([], _) => none
        | (ds, r2) => some (s :: ds, r2)
      else
        match spanDigits cs with
        | ([], _) => none
        | (ds, r2) => some (ds, r2)
  | [] => none

/-- Optional fraction group `(\.\d+)?`: a dot followed by at least one
digit (maximal munch), else nothing (regex backtracking). -/
def fracPart : List Char → List Char × List Char
  | c :: d :: r =>
      if c = '.' && isDigitChar d then
        let (ds, r2) := spanDigits r
        ('.' :: d :: ds, r2)
      else ([], c :: d :: r)
  | cs => ([], cs)

/-- Optional exponent group `([eE][-+]?\d+)?`. -/
def expPart : List Char → List Char × List Char
  | e :: r =>
      if e = 'e' || e = 'E' then
        match expTail r with
        | some (t, r2) => (e :: t, r2)
        | none => ([], e :: r)
      else ([], e :: r)
  | [] => ([], [])

/-- The fraction and exponent groups following the integer part, per the
scanner regex `(-?(?:0|[1-9]\d*))(\.\d+)?([eE][-+]?\d+)?`. -/
def fracExp (pre cs : List Char) : List Char × List Char :=
  (pre ++ (fracPart cs).1 ++ (expPart (fracPart cs).2).1, (expPart (fracPart cs).2).2)

/-- The number lexeme after the optional sign: `0`, or a nonzero digit
followed by more digits, then the optional fraction and exponent. -/
def numLexCore (sgn : List Char) : List Char → Option (List Char × List Char)
  | c :: r =>
      if c = '0' then some (fracExp (sgn ++ ['0']) r)
      else if isDigitChar c then
        some (fracExp (sgn ++ c :: (spanDigits r).1) (spanDigits r).2)
      else none
  | [] => none

/-- Match a number lexeme at the head of the input (the scanner regex,
maximal munch); returns the lexeme characters and the rest. -/
def numLex (cs : List Char) : Option (List Char × List Char) :=
  match cs with
  | c0 :: r0 => if c0 = '-' then numLexCore ['-'] r0 else numLexCore [] (c0 :: r0)
  | [] => none

mutual
/-- One JSON value, after skipping leading whitespace.  Dispatch follows the
C scanner: string, object, array, `null`/`true`/`false`, number, then the
non-standard constants `NaN`, `Infinity`, `-Infinity` (accepted by default). -/
def parseVal (fuel : Nat) (cs : List Char) : Option (Json × List Char) :=
  match fuel with
  | 0 => none
  | fuel + 1 =>
    match skipWs cs with
    | [] => none
    | c :: r =>
      if c = '"' then
        match parseStringBody (r.length + 1) [] r with
        | some (s, r2) => some (Json.str s, r2)
        | none => none
      else if c = obraceC then
        match skipWs r with
        | [] => none
        | c2 :: r2 =>
            if c2 = cbraceC then some (Json.obj [], r2)
            else
              match parseMembers fuel (c2 :: r2) with
              | some (ms, r3) => some (Json.obj (buildDict ms), r3)
              | none => none
      else if c = '[' then
        match skipWs r with
        | [] => none
        | c2 :: r2 =>
            if c2 = ']' then some (Json.arr [], r2)
            else
              match parseElems fuel (c2 :: r2) with
              | some (vs, r3) => some (Json.arr vs, r3)
              | none => none
      else if c = 'n' then
        match r with
        | 'u' :: 'l' :: 'l' :: r2 => some (Json.null, r2)
        | _ => none
      else if c = 't' then
        match r with
        | 'r' :: 'u' :: 'e' :: r2 => some (Json.bool true, r2)
        | _ => none
      else if c = 'f' then
        match r with
        | 'a' :: 'l' :: 's' :: 'e' :: r2 => some (Json.bool false, r2)
        | _ => none
      else if c = '-' || isDigitChar c then
        match numLex (c :: r) with
        | some (lex, r2) => some (Json.num (String.mk lex), r2)
        | none =>
            match r with
            | 'I' :: 'n' :: 'f' :: 'i' :: 'n' :: 'i' :: 't' :: 'y' :: r2 =>
                if c = '-' then some (Json.num ("-Infinity"), r2) else none
            | _ => none
      else if c = 'N' then
        match r with
        | 'a' :: 'N' :: r2 => some (Json.num ("NaN"), r2)
        | _ => none
      else if c = 'I' then
        match r with
        | 'n' :: 'f' :: 'i' :: 'n' :: 'i' :: 't' :: 'y' :: r2 =>
            some (Json.num ("Infinity"), r2)
        | _ => none
      else none
/-- One-or-more comma-separated array elements (the empty array is handled
by the caller); a value is required after every comma. -/
def parseElems (fuel : Nat) (cs : List Char) : Option (List Json × List Char) :=
  match fuel with
  | 0 => none
  | fuel + 1 =>
    match parseVal fuel cs with
    | none => none
    | some (v, r) =>
        match skipWs r with
        | ',' :: r2 =>
            match parseElems fuel r2 with
            | some (vs, r3) => some (v :: vs, r3)
            | none => none
        | ']' :: r2 => some ([v], r2)
        | _ => none
/-- One-or-more object members, starting at a property name (whitespace
already skipped by the caller); after a comma a name is required. -/
def parseMembers (fuel : Nat) (cs : List Char) :
    Option (List (String × Json) × List Char) :=
  match fuel with
  | 0 => none
  | fuel + 1 =>
    match cs with
    | '"' :: r =>
        match parseStringBody (r.length + 1) [] r with
        | none => none
        | some (key, r1) =>
            match skipWs r1 with
            | ':' :: r2 =>
                match parseVal fuel r2 with
                | none => none
                | some (v, r3) =>
                    match skipWs r3 with
                    | ',' :: r4 =>
                        match parseMembers fuel (skipWs r4) with
                        | some (ms, r5) => some ((key, v) :: ms, r5)
                        | none => none
                    | c5 :: r4 =>
                        if c5 = cbraceC then some ([(key, v)], r4) else none
                    | [] => none
            | _ => none
    | _ => none
end

/-- `json.loads` on text: one value, then only trailing whitespace. -/
def jsonLoads (cs : List Char) : Option Json :=
  match parseVal (cs.length + 1) cs with
  | some (j, r) => if skipWs r = [] then some j else none
  | none => none

/-! ## `json.dump(..., indent=2)` (default `ensure_ascii=True`) -/

def toHexChar (n : Nat) : Char :=
  if n < 10 then Char.ofNat (48 + n) else Char.ofNat (87 + n)

def hex4Chars (n : Nat) : List Char :=
  [toHexChar (n / 4096 % 16), toHexChar (n / 256 % 16),
   toHexChar (n / 16 % 16), toHexChar (n % 16)]

/-- One string character as the encoder emits it: the short escapes, then
printable ASCII verbatim, then `\uXXXX` (a surrogate pair above 0xFFFF). -/
def escapeChar (c : Char) : List Char :=
  if c = '"' then ['\\', '"']
  else if c = '\\' then ['\\', '\\']
  else if c = Char.ofNat 8 then ['\\', 'b']
  else if c = Char.ofNat 12 then ['\\', 'f']
  else if c = '\n' then ['\\', 'n']
  else if c = '\r' then ['\\', 'r']
  else if c = '\t' then ['\\', 't']
  else if 0x20 ≤ c.toNat && c.toNat ≤ 0x7e then [c]
  else if c.toNat < 0x10000 then '\\' :: 'u' :: hex4Chars c.toNat
  else
    ('\\' :: 'u' :: hex4Chars (0xD800 + (c.toNat - 0x10000) / 0x400)) ++
    ('\\' :: 'u' :: hex4Chars (0xDC00 + (c.toNat - 0x10000) % 0x400))

def dumpStr (s : String) : List Char :=
  '"' :: (s.toList.flatMap escapeChar ++ ['"'])

/-- Newline plus the indentation of `indent=2` at the given level. -/
def nlIndent (lvl : Nat) : List Char :=
  '\n' :: List.replicate (2 * lvl) ' '

mutual
/-- Serialize a value at an indentation level, exactly as
`json.dump(..., indent=2)` lays it out (number lexemes verbatim). -/
def dumpVal : Json → Nat → List Char
  | Json.null, _ => ['n', 'u', 'l', 'l']
  | Json.bool true, _ => ['t', 'r', 'u', 'e']
  | Json.bool false, _ => ['f', 'a', 'l', 's', 'e']
  | Json.num lx, _ => lx.toList
  | Json.str s, _ => dumpStr s
  | Json.arr [], _ => ['[', ']']
  | Json.arr (x :: xs), lvl =>
      '[' :: (nlIndent (lvl + 1) ++ dumpVal x (lvl + 1) ++
        dumpArrTail xs (lvl + 1) ++ nlIndent lvl ++ [']'])
  | Json.obj [], _ => [obraceC, cbraceC]
  | Json.obj ((k, v) :: ms), lvl =>
      obraceC :: (nlIndent (lvl + 1) ++ dumpStr k ++ ':' :: ' ' ::
        (dumpVal v (lvl + 1) ++ dumpObjTail ms (lvl + 1) ++ nlIndent lvl ++ [cbraceC]))
def dumpArrTail : List Json → Nat → List Char
  | [], _ => []
  | x :: xs, lvl => ',' :: (nlIndent lvl ++ dumpVal x lvl ++ dumpArrTail xs lvl)
def dumpObjTail : List (String × Json) → Nat → List Char
  | [], _ => []
  | (k, v) :: ms, lvl =>
      ',' :: (nlIndent lvl ++ dumpStr k ++ ':' :: ' ' ::
        (dumpVal v lvl ++ dumpObjTail ms lvl))
end

def jsonDumps (j : Json) : String := String.mk (dumpVal j 0)

end MyCli

namespace MyCli

/-! ## `base64.urlsafe_b64decode` on `str` input -/

/-- The standard base64 alphabet value of a character, after the urlsafe
translation has already mapped `-` to `+` and `_` to `/`. -/
def b64Table (c : Char) : Option Nat :=
  if 'A' ≤ c && c ≤ 'Z' then some (c.toNat - 65)
  else if 'a' ≤ c && c ≤ 'z' then some (c.toNat - 97 + 26)
  else if '0' ≤ c && c ≤ '9' then some (c.toNat - 48 + 52)
  else if c = '+' then some 62
  else if c = '/' then some 63
  else none

def emitQuad (a b c d : Nat) : List Nat :=
  [a * 4 + b / 16, b % 16 * 16 + c / 4, c % 4 * 64 + d]

/-- Bytes of an incomplete final group of two or three data characters. -/
def flushQuad : List Nat → List Nat
  | [a, b] => [a * 4 + b / 16]
  | [a, b, c] => [a * 4 + b / 16, b % 16 * 16 + c / 4]
  | _ => []

/-- `binascii.a2b_base64` in non-strict mode (the default used by
`base64.b64decode`): characters outside the alphabet are skipped; a `=` is
counted only when at least two data characters of the current group have
been seen, and decoding ends successfully once group position plus count of
`=` seen reaches four; every data character resets the `=` count to zero
(`pads = 0` in binascii.c), so an interior `=` cannot help a later group
terminate; input exhausted mid-group is an error.  Checked against the
observable behaviour of CPython 3.11. -/
def a2b_base64 : List Char → List Nat → Nat → Option (List Nat)
  | [], quad, _ => if quad.length = 0 then some [] else none
  | c :: rest, quad, pads =>
      if c = '=' then
        if 2 ≤ quad.length then
          if 4 ≤ quad.length + pads + 1 then some (flushQuad quad)
          else a2b_base64 rest quad (pads + 1)
        else a2b_base64 rest quad pads
      else
        match b64Table c with
        | none => a2b_base64 rest quad pads
        | some d =>
            match quad with
            | [a, b, c0] =>
                match a2b_base64 rest [] 0 with
                | some tail => some (emitQuad a b c0 d ++ tail)
                | none => none
            | _ => a2b_base64 rest (quad ++ [d]) 0

/-- `base64.urlsafe_b64decode` on a `str`: encode to ASCII (non-ASCII input
raises, giving `none`), translate `-`/`_`, then decode. -/
def urlsafe_b64decode (s : List Char) : Option (List Nat) :=
  if s.all (fun c => c.toNat < 128) then
    a2b_base64 (s.map (fun c => if c = '-' then '+' else if c = '_' then '/' else c)) [] 0
  else none

/-! ## `bytes.decode` for the encodings `json.detect_encoding` can pick -/

/-- Strict UTF-8 decoding (rejects overlong forms, surrogates, values above
0x10FFFF, truncated sequences). -/
def utf8Decode : List Nat → Option (List Char)
  | [] => some []
  | b :: rest =>
      if b < 0x80 then
        match utf8Decode rest with
        | some cs => some (Char.ofNat b :: cs)
        | none => none
      else if b < 0xC2 then none
      else if b ≤ 0xDF then
        match rest with
        | c1 :: rest2 =>
            if 0x80 ≤ c1 && c1 ≤ 0xBF then
              match utf8Decode rest2 with
              | some cs => some (Char.ofNat ((b - 0xC0) * 0x40 + (c1 - 0x80)) :: cs)
              | none => none
            else none
        | [] => none
      else if b ≤ 0xEF then
        match rest with
        | c1 :: c2 :: rest2 =>
            if (if b = 0xE0 then 0xA0 else 0x80) ≤ c1 &&
               c1 ≤ (if b = 0xED then 0x9F else 0xBF) &&
               0x80 ≤ c2 && c2 ≤ 0xBF then
              match utf8Decode rest2 with
              | some cs =>
                  some (Char.ofNat ((b - 0xE0) * 0x1000 + (c1 - 0x80) * 0x40 + (c2 - 0x80)) :: cs)
              | none => none
            else none
        | _ => none
      else if b ≤ 0xF4 then
        match rest with
        | c1 :: c2 :: c3 :: rest2 =>
            if (if b = 0xF0 then 0x90 else 0x80) ≤ c1 &&
               c1 ≤ (if b = 0xF4 then 0x8F else 0xBF) &&
               0x80 ≤ c2 && c2 ≤ 0xBF && 0x80 ≤ c3 && c3 ≤ 0xBF then
              match utf8Decode rest2 with
              | some cs =>
                  some (Char.ofNat ((b - 0xF0) * 0x40000 + (c1 - 0x80) * 0x1000 +
                    (c2 - 0x80) * 0x40 + (c3 - 0x80)) :: cs)
              | none => none
            else none
        | _ => none
      else none

/-- Strict UTF-16 decoding at a fixed endianness (no BOM handling here). -/
def utf16Decode (be : Bool) : List Nat → Option (List Char)
  | [] => some []
  | [_] => none
  | b1 :: b2 :: rest =>
      let u := if be then b1 * 256 + b2 else b2 * 256 + b1
      if u < 0xD800 || 0xE000 ≤ u then
        match utf16Decode be rest with
        | some cs => some (Char.ofNat u :: cs)
        | none => none
      else if u ≤ 0xDBFF then
        match rest with
        | c1 :: c2 :: rest2 =>
            let v := if be then c1 * 256 + c2 else c2 * 256 + c1
            if 0xDC00 ≤ v && v ≤ 0xDFFF then
              match utf16Decode be rest2 with
              | some cs =>
                  some (Char.ofNat (0x10000 + (u - 0xD800) * 0x400 + (v - 0xDC00)) :: cs)
              | none => none
            else none
        | _ => none
      else none

/-- Strict UTF-32 decoding at a fixed endianness. -/
def utf32Decode (be : Bool) : List Nat → Option (List Char)
  | [] => some []
  | b1 :: b2 :: b3 :: b4 :: rest =>
      let u := if be then ((b1 * 256 + b2) * 256 + b3) * 256 + b4
               else ((b4 * 256 + b3) * 256 + b2) * 256 + b1
      if u ≤ 0x10FFFF && (u < 0xD800 || 0xDFFF < u) then
        match utf32Decode be rest with
        | some cs => some (Char.ofNat u :: cs)
        | none => none
      else none
  | _ => none

/-- `json.detect_encoding` followed by `bytes.decode`: BOM checks first
(UTF-32 before UTF-16), then the null-byte patterns, defaulting to UTF-8.
The BOM-named codecs strip the BOM and use its endianness. -/
def pyDecodeBytes (bs : List Nat) : Option (List Char) :=
  match bs with
  | 0 :: 0 :: 0xFE :: 0xFF :: rest => utf32Decode true rest
  | 0xFF :: 0xFE :: 0 :: 0 :: rest => utf32Decode false rest
  | 0xFE :: 0xFF :: rest => utf16Decode true rest
  | 0xFF :: 0xFE :: rest => utf16Decode false rest
  | 0xEF :: 0xBB :: 0xBF :: rest => utf8Decode rest
  | b0 :: b1 :: b2 :: b3 :: _ =>
      if b0 = 0 then
        if b1 ≠ 0 then utf16Decode true bs else utf32Decode true bs
      else if b1 = 0 then
        if b2 ≠ 0 || b3 ≠ 0 then utf16Decode false bs else utf32Decode false bs
      else utf8Decode bs
  | [b0, b1] =>
      if b0 = 0 then utf16Decode true bs
      else if b1 = 0 then utf16Decode false bs
      else utf8Decode bs
  | _ => utf8Decode bs

/-- `json.loads` on `bytes`: detect the encoding, decode, then scan. -/
def bytesJsonLoads (bs : List Nat) : Option Json :=
  match pyDecodeBytes bs with
  | some cs => jsonLoads cs
  | none => none

/-! ## `parse_jwt_token` (mycli.py lines 164-209) -/

/-- Python `token_string.split(".")`: split at every dot, keeping empty
segments; the empty string yields one empty segment. -/
def splitDot : List Char → List (List Char)
  | [] => [[]]
  | c :: rest =>
      if c = '.' then [] :: splitDot rest
      else
        match splitDot rest with
        | g :: gs => (c :: g) :: gs
        | [] => [[c]]

/-- Line 175: `payload += "=" * (4 - len(payload) % 4)` — note this appends
between one and four `=`, a full `====` when the length is already a
multiple of four. -/
def addPadding (p : List Char) : List Char :=
  p ++ List.replicate (4 - p.length % 4) '='

/-- Lines 166-179: split on dots, require exactly three segments, pad and
base64url-decode the middle one, parse the bytes as JSON.  Any failure
(wrong segment count, decode error, parse error) is `none` — in the source
an exception caught by the surrounding `try`. -/
def payload_json_of (token_string : String) : Option Json :=
  match splitDot token_string.toList with
  | [_, payload, _] =>
      match urlsafe_b64decode (addPadding payload) with
      | some bytes => bytesJsonLoads bytes
      | none => none
  | _ => none

/-- The `user_info` dict built by `parse_jwt_token` (lines 182-205). -/
structure UserInfo where
  user_id : Json
  display_name : Json
  tenant_id : Json
  tenant_name : Json
  object_id : Json
  roles : Json
deriving DecidableEq, Repr

/-- Lines 182-205: claim extraction from the decoded payload.  When the
payload is not a JSON object, every path of the Python code raises
(`TypeError`/`AttributeError` on `in`, indexing or `.get`) and the
surrounding `except` returns `None`; hence `none` for every non-object.
Python `.get` returns its default only when the key is absent, and absent
optional claims become `None`, modelled as `Json.null`. -/
def extract_user_info : Json → Option UserInfo
  | Json.obj kvs =>
      let uid : Json :=
        match dget kvs ("upn") with
        | some v => v
        | none =>
            match dget kvs ("unique_name") with
            | some v => v
            | none =>
                match dget kvs ("email") with
                | some v => v
                | none => (dget kvs ("sub")).getD (Json.str ("unknown"))
      some
        { user_id := uid
          display_name := (dget kvs ("name")).getD uid
          tenant_id := (dget kvs ("tid")).getD Json.null
          tenant_name := (dget kvs ("tenant_name")).getD Json.null
          object_id := (dget kvs ("oid")).getD Json.null
          roles := (dget kvs ("roles")).getD (Json.arr []) }
  | _ => none

/-- `parse_jwt_token` (lines 164-209): decode the payload, then extract the
claims; every failure inside the `try` yields `None`. -/
def parse_jwt_token (token_string : String) : Option UserInfo :=
  match payload_json_of token_string with
  | some pj => extract_user_info pj
  | none => none

end MyCli

namespace MyCli

/-! ## The authentication state store (mycli.py lines 33-161, 338-373) -/

/-- Python truthiness of a JSON-valued dict entry.  For numbers, the lexeme
has value zero exactly when all mantissa digits are `0` (`NaN`/`Infinity`
are truthy); exponents so small that the float underflows to `0.0` are not
modelled — no claim involves numeric fields. -/
def numIsZero (lx : String) : Bool :=
  let cs := match lx.toList with
    | c :: r => if c = '-' then r else c :: r
    | [] => []
  (cs.takeWhile (fun c => c ≠ 'e' && c ≠ 'E')).all (fun c => c = '0' || c = '.')

def jsonTruthy : Json → Bool
  | Json.null => false
  | Json.bool b => b
  | Json.num lx => !(numIsZero lx)
  | Json.str s => !(s == "")
  | Json.arr xs => !xs.isEmpty
  | Json.obj kvs => !kvs.isEmpty

/-- The `credential` slot: either a JSON value (initially `None`, or set
from the state file by `load`), or the live SDK credential object set by
`authenticate_user`, which is not a JSON value. -/
inductive CredVal where
  | json (j : Json)
  | live
deriving DecidableEq, Repr

/-- The module-level `_auth_state` dict (line 33).  The four fixed keys are
fields; `extra` holds any further keys a `load` merged in. -/
structure AuthState where
  is_authenticated : Json
  user_info : Json
  tenant_id : Json
  credential : CredVal
  extra : List (String × Json)
deriving DecidableEq, Repr

/-- Line 33: the state at process start. -/
def initialAuthState : AuthState :=
  { is_authenticated := Json.bool false, user_info := Json.null,
    tenant_id := Json.null, credential := CredVal.json Json.null, extra := [] }

/-- One key assignment into the state dict. -/
def setStateKey (st : AuthState) (k : String) (v : Json) : AuthState :=
  if k = "is_authenticated" then { st with is_authenticated := v }
  else if k = "user_info" then { st with user_info := v }
  else if k = "tenant_id" then { st with tenant_id := v }
  else if k = "credential" then { st with credential := CredVal.json v }
  else { st with extra := dset st.extra k v }

/-- `dict.update` with a sequence argument: each element must be a pair.
A two-element array with a string key and a two-character string both work
in Python; elements of other shapes raise.  Python additionally accepts
hashable non-string keys (numbers, booleans, `None`) in pair elements;
those are modelled as errors — no claim reaches them, and every update
argument in the theorems below is an object or absent. -/
def updatePairs (st : AuthState) : List Json → Except Unit AuthState
  | [] => Except.ok st
  | Json.arr [Json.str k, v] :: rest => updatePairs (setStateKey st k v) rest
  | Json.str s :: rest =>
      match s.toList with
      | [k, v] => updatePairs (setStateKey st (String.mk [k]) (Json.str (String.mk [v]))) rest
      | _ => Except.error ()
  | _ => Except.error ()

/-- `_auth_state.update(arg)` (line 47) for an argument decoded from JSON:
a dict merges key by key; an empty string or empty list is a no-op; a
non-empty string raises `ValueError` (its elements are one-character
strings); numbers, booleans and `None` raise `TypeError`.  `Except.error`
is an exception that the `except (json.JSONDecodeError, IOError)` clause
does not catch. -/
def dictUpdate (st : AuthState) (arg : Json) : Except Unit AuthState :=
  match arg with
  | Json.obj kvs => Except.ok (kvs.foldl (fun s kv => setStateKey s kv.1 kv.2) st)
  | Json.str s => if s = "" then Except.ok st else Except.error ()
  | Json.arr xs => updatePairs st xs
  | _ => Except.error ()

/-- `load_auth_state` (lines 41-49).  The backing file is `none` when
`CONFIG_FILE.exists()` is false; `readFails` injects an `IOError` on
open/read (caught).  A parse failure is caught; but if the file parses to a
non-dict, `data.get` raises `AttributeError`, and a non-dict `auth` value
can make `update` raise — neither is caught. -/
def load_auth_state (st : AuthState) (file : Option String) (readFails : Bool) :
    Except Unit AuthState :=
  match file with
  | none => Except.ok st
  | some content =>
      if readFails then Except.ok st
      else
        match jsonLoads content.toList with
        | none => Except.ok st
        | some (Json.obj kvs) => dictUpdate st ((dget kvs ("auth")).getD (Json.obj []))
        | some _ => Except.error ()

/-- The serializable `auth` sub-object written by `save_auth_state`
(lines 62-66): exactly the three fields, never the credential. -/
def authDict (st : AuthState) : Json :=
  Json.obj [(("is_authenticated"), st.is_authenticated),
            (("user_info"), st.user_info),
            (("tenant_id"), st.tenant_id)]

/-- `save_auth_state` (lines 52-71).  `ensure_config_dir()` runs before the
`try`, so a `mkdir` failure propagates.  Inside the `try`, only `IOError`
is caught: an existing file whose content does not parse raises
`json.JSONDecodeError` (a `ValueError`), and one parsing to a non-dict
makes `config_data["auth"] = ...` raise `TypeError`; both propagate.  An
`IOError` on read or write is swallowed, leaving the file unchanged. -/
def save_auth_state (st : AuthState) (file : Option String)
    (mkdirFails readFails writeFails : Bool) : Except Unit (Option String) :=
  if mkdirFails then Except.error ()
  else
    match file with
    | some content =>
        if readFails then Except.ok file
        else
          match jsonLoads content.toList with
          | none => Except.error ()
          | some (Json.obj kvs) =>
              if writeFails then Except.ok file
              else Except.ok (some (jsonDumps (Json.obj (dset kvs ("auth") (authDict st)))))
          | some _ => Except.error ()
    | none =>
        if writeFails then Except.ok none
        else Except.ok (some (jsonDumps (Json.obj [(("auth"), authDict st)])))

/-- `clear_auth_state` (lines 158-161): reset the four fixed keys (other
keys a `load` may have merged stay), then save. -/
def clear_auth_state (st : AuthState) (file : Option String)
    (mkdirFails readFails writeFails : Bool) :
    Except Unit (AuthState × Option String) :=
  let st2 := { st with
    is_authenticated := Json.bool false, user_info := Json.null,
    tenant_id := Json.null, credential := CredVal.json Json.null }
  match save_auth_state st2 file mkdirFails readFails writeFails with
  | Except.ok d => Except.ok (st2, d)
  | Except.error e => Except.error e

/-- `is_authenticated` (lines 153-155): the raw dict value; call sites
apply truthiness. -/
def is_authenticated (st : AuthState) : Json := st.is_authenticated

/-- Outcome of the external Azure SDK interaction inside
`authenticate_user`, which the embedding takes as an oracle: the SDK may be
missing, credential creation may fail, `get_token` may raise, or a token
with the given text is returned. -/
inductive AzOutcome where
  | no_sdk
  | no_credential
  | auth_error
  | token (t : String)
deriving DecidableEq, Repr

/-- The Python dict `parse_jwt_token` returns, in insertion order. -/
def userInfoDict (ui : UserInfo) : Json :=
  Json.obj [(("user_id"), ui.user_id), (("display_name"), ui.display_name),
            (("tenant_id"), ui.tenant_id), (("tenant_name"), ui.tenant_name),
            (("object_id"), ui.object_id), (("roles"), ui.roles)]

/-- Lines 137-140: the fallback when token parsing fails. -/
def fallbackUserInfo : Json :=
  Json.obj [(("user_id"), Json.str ("authenticated_user@domain.com")),
            (("display_name"), Json.str ("Authenticated User"))]

def tenantArgJson : Option String → Json
  | some t => Json.str t
  | none => Json.null

/-- Python `not tenant_id` for the `str | None` argument. -/
def tenantFalsy : Option String → Bool
  | none => true
  | some t => t == ""

/-- Lines 124-140: the state mutation performed once `get_token` returned a
token whose text is `tok`. -/
def authenticate_mutation (st : AuthState) (tok : String) (tenant_id : Option String) :
    AuthState :=
  let st1 := { st with
    is_authenticated := Json.bool true, credential := CredVal.live,
    tenant_id := tenantArgJson tenant_id }
  match parse_jwt_token tok with
  | some ui =>
      let st2 := { st1 with user_info := userInfoDict ui }
      if tenantFalsy tenant_id && jsonTruthy ui.tenant_id then
        { st2 with tenant_id := ui.tenant_id }
      else st2
  | none => { st1 with user_info := fallbackUserInfo }

/-- `authenticate_user` (lines 99-150).  Every exception inside, including
one raised by `save_auth_state`, is caught by its `except` clauses, so the
function returns a `Bool`; when save fails the state is already mutated
but the file is unchanged and `False` is returned. -/
def authenticate_user (tenant_id : Option String) (az : AzOutcome) (st : AuthState)
    (file : Option String) (mkdirFails readFails writeFails : Bool) :
    Bool × AuthState × Option String :=
  match az with
  | AzOutcome.no_sdk => (false, st, file)
  | AzOutcome.no_credential => (false, st, file)
  | AzOutcome.auth_error => (false, st, file)
  | AzOutcome.token t =>
      let st2 := authenticate_mutation st t tenant_id
      match save_auth_state st2 file mkdirFails readFails writeFails with
      | Except.ok d => (true, st2, d)
      | Except.error _ => (false, st2, file)

/-- Console output of the `login` command, as abstract events (the concrete
strings carry colour escape codes and no information the claims use). -/
inductive OutMsg where
  | already_authenticated
  | starting_auth
  | tenant_echo
  | device_code_notice
  | demo_messages
  | auth_success
  | auth_failed
deriving DecidableEq, Repr

/-- Lines 355-357: the demo identity. -/
def demoUserInfo : Json :=
  Json.obj [(("user_id"), Json.str ("demo.user@contoso.com")),
            (("display_name"), Json.str ("Demo User"))]

/-- Line 357: `tenant or "demo-tenant-id"`. -/
def pyOrTenant : Option String → String
  | none => "demo-tenant-id"
  | some t => if t = "" then "demo-tenant-id" else t

/-- The `login` command (lines 338-373).  If already authenticated it
prints a notice and returns at once; the demo branch fabricates an
identity and saves (a save exception propagates out of the handler); the
real branch delegates to `authenticate_user`, which never raises. -/
def login (tenant : Option String) (use_device_code demo : Bool) (az : AzOutcome)
    (st : AuthState) (file : Option String) (mkdirFails readFails writeFails : Bool) :
    Except Unit (List OutMsg × AuthState × Option String) :=
  if jsonTruthy (is_authenticated st) then
    Except.ok ([OutMsg.already_authenticated], st, file)
  else
    let msgs := [OutMsg.starting_auth] ++
      (if !(tenantFalsy tenant) then [OutMsg.tenant_echo] else []) ++
      (if use_device_code then [OutMsg.device_code_notice] else [])
    if demo then
      let st2 := { st with
        is_authenticated := Json.bool true, user_info := demoUserInfo,
        tenant_id := Json.str (pyOrTenant tenant) }
      match save_auth_state st2 file mkdirFails readFails writeFails with
      | Except.ok d => Except.ok (msgs ++ [OutMsg.demo_messages], st2, d)
      | Except.error e => Except.error e
    else
      match authenticate_user tenant az st file mkdirFails readFails writeFails with
      | (ok, st2, d) =>
          Except.ok (msgs ++ [if ok then OutMsg.auth_success else OutMsg.auth_failed], st2, d)

end MyCli

namespace MyCli

/-! ## Well-formed values: the exact image of Python objects

A `Json` value is well formed when it can actually arise as a Python value
of the program: object keys are pairwise distinct (Python dicts), and every
number lexeme is one the scanner can produce (a full match of the number
regex, or one of the three accepted constants). -/

def digitsEnd (cs : List Char) : Bool := !cs.isEmpty && cs.all isDigitChar

/-- After `e`/`E`: optional sign then at least one digit, to the end. -/
def expEnd : List Char → Bool
  | [] => false
  | c :: r => if c = '+' || c = '-' then digitsEnd r else digitsEnd (c :: r)

def expPartEnd : List Char → Bool
  | [] => true
  | e :: r => (e = 'e' || e = 'E') && expEnd r

def fracExpEnd : List Char → Bool
  | [] => true
  | c :: r =>
      if c = '.' then !(spanDigits r).1.isEmpty && expPartEnd (spanDigits r).2
      else expPartEnd (c :: r)

/-- Full match of the part after the optional sign. -/
def numBodyCore : List Char → Bool
  | c :: r =>
      if c = '0' then fracExpEnd r
      else isDigitChar c && fracExpEnd (spanDigits r).2
  | [] => false

/-- Full match of `(-?(?:0|[1-9]\d*))(\.\d+)?([eE][-+]?\d+)?`. -/
def numBody (cs : List Char) : Bool :=
  match cs with
  | c :: r => if c = '-' then numBodyCore r else numBodyCore (c :: r)
  | [] => false

def numLexOk (s : String) : Bool :=
  s == "NaN" || s == "Infinity" || s == "-Infinity" || numBody s.toList

mutual
def jsonWf : Json → Bool
  | Json.null => true
  | Json.bool _ => true
  | Json.num lx => numLexOk lx
  | Json.str _ => true
  | Json.arr xs => jsonWfL xs
  | Json.obj kvs => keysFresh kvs && jsonWfK kvs
def jsonWfL : List Json → Bool
  | [] => true
  | x :: xs => jsonWf x && jsonWfL xs
def jsonWfK : List (String × Json) → Bool
  | [] => true
  | (_, v) :: kvs => jsonWf v && jsonWfK kvs
end

/-! ## Association-list (Python dict) lemmas -/

theorem dget_dset_self (kvs : List (String × Json)) (k : String) (v : Json) :
    dget (dset kvs k v) k = some v := by
  induction kvs with
  | nil => simp [dset, dget]
  | cons kv rest ih =>
      obtain ⟨k1, w⟩ := kv
      by_cases h : k1 = k
      · simp [dset, dget, h]
      · simp [dset, dget, h, ih]

theorem dget_dset_ne (kvs : List (String × Json)) (k k2 : String) (v : Json)
    (h : k2 ≠ k) : dget (dset kvs k v) k2 = dget kvs k2 := by
  induction kvs with
  | nil => simp [dset, dget, Ne.symm h]
  | cons kv rest ih =>
      obtain ⟨k1, w⟩ := kv
      by_cases h1 : k1 = k
      · subst h1
        simp [dset, dget, Ne.symm h]
      · simp only [dset, if_neg h1, dget]
        by_cases h2 : k1 = k2
        · simp [h2]
        · simp [h2, ih]

theorem keysFresh_dset (kvs : List (String × Json)) (k : String) (v : Json)
    (h : keysFresh kvs = true) : keysFresh (dset kvs k v) = true := by
  induction kvs with
  | nil => simp [dset, keysFresh, dget]
  | cons kv rest ih =>
      obtain ⟨k1, w⟩ := kv
      simp only [keysFresh, Bool.and_eq_true, Option.isNone_iff_eq_none] at h
      by_cases h1 : k1 = k
      · subst h1
        simp [dset, keysFresh, h.1, h.2]
      · simp only [dset, if_neg h1, keysFresh, Bool.and_eq_true,
          Option.isNone_iff_eq_none]
        exact ⟨by rw [dget_dset_ne rest k k1 v h1]; exact h.1, ih h.2⟩

theorem jsonWfK_dset (kvs : List (String × Json)) (k : String) (v : Json)
    (hk : jsonWfK kvs = true) (hv : jsonWf v = true) :
    jsonWfK (dset kvs k v) = true := by
  induction kvs with
  | nil => simp [dset, jsonWfK, hv]
  | cons kv rest ih =>
      obtain ⟨k1, w⟩ := kv
      simp only [jsonWfK, Bool.and_eq_true] at hk
      by_cases h1 : k1 = k
      · simp [dset, h1, jsonWfK, hv, hk.2]
      · simp only [dset, if_neg h1, jsonWfK, Bool.and_eq_true]
        exact ⟨hk.1, ih hk.2⟩

/-- `buildDict` always yields a genuine dict (pairwise distinct keys). -/
theorem keysFresh_buildDict (ms : List (String × Json)) :
    keysFresh (buildDict ms) = true := by
  have h : ∀ acc, keysFresh acc = true →
      keysFresh (ms.foldl (fun acc kv => dset acc kv.1 kv.2) acc) = true := by
    induction ms with
    | nil => intro acc hacc; simpa using hacc
    | cons kv rest ih =>
        intro acc hacc
        rw [List.foldl_cons]
        exact ih _ (keysFresh_dset acc kv.1 kv.2 hacc)
  exact h [] rfl

theorem jsonWfK_buildDict (ms : List (String × Json)) (h : jsonWfK ms = true) :
    jsonWfK (buildDict ms) = true := by
  have hgen : ∀ ms2 acc, jsonWfK acc = true → jsonWfK ms2 = true →
      jsonWfK (ms2.foldl (fun acc kv => dset acc kv.1 kv.2) acc) = true := by
    intro ms2
    induction ms2 with
    | nil => intro acc hacc _; simpa using hacc
    | cons kv rest ih =>
        intro acc hacc hall
        obtain ⟨k1, v1⟩ := kv
        simp only [jsonWfK, Bool.and_eq_true] at hall
        rw [List.foldl_cons]
        exact ih _ (jsonWfK_dset acc k1 v1 hacc hall.1) hall.2
  exact hgen ms [] rfl h

theorem dget_append (xs ys : List (String × Json)) (k : String) :
    dget (xs ++ ys) k =
      (match dget xs k with
       | some v => some v
       | none => dget ys k) := by
  induction xs with
  | nil => simp [dget]
  | cons kv rest ih =>
      obtain ⟨k1, w⟩ := kv
      by_cases h1 : k1 = k
      · simp [dget, h1]
      · simp [dget, h1, ih]

theorem dget_none_forall (xs : List (String × Json)) (k : String)
    (h : dget xs k = none) : ∀ kv ∈ xs, kv.1 ≠ k := by
  induction xs with
  | nil => intro kv hmem; cases hmem
  | cons a rest ih =>
      obtain ⟨ka, va⟩ := a
      simp only [dget] at h
      by_cases hk : ka = k
      · simp [hk] at h
      · intro kv hmem
        rcases List.mem_cons.mp hmem with hh | hh
        · subst hh; exact hk
        · exact ih (by simpa [hk] using h) kv hh

theorem dset_append_of_none (acc : List (String × Json)) (k : String) (v : Json)
    (h : dget acc k = none) : dset acc k v = acc ++ [(k, v)] := by
  induction acc with
  | nil => rfl
  | cons a rest ih =>
      obtain ⟨ka, va⟩ := a
      simp only [dget] at h
      by_cases hk : ka = k
      · simp [hk] at h
      · simp only [dset, if_neg hk, List.cons_append, List.cons.injEq, true_and]
        exact ih (by simpa [hk] using h)

/-- On a dict whose keys are already pairwise distinct, `buildDict` is the
identity (so re-parsing a dumped dict reproduces it). -/
theorem buildDict_fresh (ms : List (String × Json)) (h : keysFresh ms = true) :
    buildDict ms = ms := by
  have hgen : ∀ ms2 acc, keysFresh ms2 = true →
      (∀ kv ∈ ms2, dget acc kv.1 = none) →
      ms2.foldl (fun acc kv => dset acc kv.1 kv.2) acc = acc ++ ms2 := by
    intro ms2
    induction ms2 with
    | nil => intro acc _ _; simp
    | cons kv rest ih =>
        intro acc hf hnone
        obtain ⟨k1, v1⟩ := kv
        simp only [keysFresh, Bool.and_eq_true, Option.isNone_iff_eq_none] at hf
        rw [List.foldl_cons]
        have hacc1 : dget acc k1 = none := hnone (k1, v1) (List.mem_cons_self _ _)
        rw [show dset acc k1 v1 = acc ++ [(k1, v1)] from dset_append_of_none acc k1 v1 hacc1]
        rw [ih (acc ++ [(k1, v1)]) hf.2 ?_]
        · simp
        · intro kv2 hmem
          rw [dget_append]
          have h2 : dget acc kv2.1 = none := hnone kv2 (List.mem_cons_of_mem _ hmem)
          have h3 : kv2.1 ≠ k1 := dget_none_forall rest k1 hf.1 kv2 hmem
          simp [h2, dget, Ne.symm h3]
  simpa using hgen ms [] h (by intro kv _; rfl)

end MyCli


namespace MyCli

/-! ## String codec round trip -/

theorem charValidNat (c : Char) :
    c.toNat < 55296 ∨ (57343 < c.toNat ∧ c.toNat < 1114112) := by
  have h := c.valid
  simp only [UInt32.isValidChar] at h
  rcases h with h | ⟨h1, h2⟩
  · left; exact h
  · right; exact ⟨h1, h2⟩

theorem toNat_ofNat_valid (n : Nat) (h : Nat.isValidChar n) :
    (Char.ofNat n).toNat = n := by
  rw [Char.ofNat, dif_pos h]
  rfl

theorem hexVal_toHexChar (d : Nat) (h : d < 16) : hexVal (toHexChar d) = some d := by
  interval_cases d <;> decide

theorem hex4_parts (n : Nat) (h : n < 0x10000) :
    hex4 (toHexChar (n / 4096 % 16)) (toHexChar (n / 256 % 16))
      (toHexChar (n / 16 % 16)) (toHexChar (n % 16)) = some n := by
  have h1 := hexVal_toHexChar (n / 4096 % 16) (Nat.mod_lt _ (by omega))
  have h2 := hexVal_toHexChar (n / 256 % 16) (Nat.mod_lt _ (by omega))
  have h3 := hexVal_toHexChar (n / 16 % 16) (Nat.mod_lt _ (by omega))
  have h4 := hexVal_toHexChar (n % 16) (Nat.mod_lt _ (by omega))
  simp only [hex4, h1, h2, h3, h4, Option.bind_eq_bind, Option.some_bind,
    Option.some.injEq, bind, pure]
  omega

theorem parseStringBody_none (fuel : Nat) (acc cs : List Char)
    (h : nextStrChar cs = none) : parseStringBody (fuel + 1) acc cs = none := by
  simp only [parseStringBody, h]

theorem parseStringBody_close (fuel : Nat) (acc cs rest : List Char)
    (h : nextStrChar cs = some (none, rest)) :
    parseStringBody (fuel + 1) acc cs = some (String.mk acc.reverse, rest) := by
  simp only [parseStringBody, h]

theorem parseStringBody_char (fuel : Nat) (acc cs rest : List Char) (ch : Char)
    (h : nextStrChar cs = some (some ch, rest)) :
    parseStringBody (fuel + 1) acc cs = parseStringBody fuel (ch :: acc) rest := by
  simp only [parseStringBody, h]

theorem nextStrChar_quote (rest : List Char) :
    nextStrChar ('"' :: rest) = some (none, rest) := by
  simp [nextStrChar]

theorem nextStrChar_u (cs : List Char) :
    nextStrChar ('\\' :: 'u' :: cs) =
      match parseU cs with
      | some (ch, rest3) => some (some ch, rest3)
      | none => none := by
  rw [nextStrChar]
  rw [if_neg (by decide : ¬ ('\\' : Char) = '"'), if_pos (rfl : ('\\' : Char) = '\\'),
    if_pos (rfl : ('u' : Char) = 'u')]

theorem parseU_bmp (n : Nat) (rest : List Char) (hn : n < 0x10000)
    (h1 : ¬ (0xD800 ≤ n ∧ n ≤ 0xDBFF)) (h2 : ¬ (0xDC00 ≤ n ∧ n ≤ 0xDFFF)) :
    parseU (hex4Chars n ++ rest) = some (Char.ofNat n, rest) := by
  simp only [hex4Chars, List.cons_append, List.nil_append, parseU, hex4At]
  rw [hex4_parts n hn]
  simp only [Bool.and_eq_true, decide_eq_true_eq]
  rw [if_neg h1, if_neg h2]

theorem parseU_pair (hi lo : Nat) (rest : List Char)
    (hhi : 0xD800 ≤ hi ∧ hi ≤ 0xDBFF) (hlo : 0xDC00 ≤ lo ∧ lo ≤ 0xDFFF) :
    parseU (hex4Chars hi ++ ('\\' :: 'u' :: (hex4Chars lo ++ rest)))
      = some (surrogateChar hi lo, rest) := by
  simp only [hex4Chars, List.cons_append, List.nil_append, List.append_assoc, parseU, hex4At]
  rw [hex4_parts hi (by omega)]
  simp only [Bool.and_eq_true, decide_eq_true_eq]
  rw [if_pos hhi]
  simp only [and_self, if_true]
  rw [hex4_parts lo (by omega)]
  rw [show (match (match some lo with
      | some n => some (n, rest)
      | none => none : Option (Nat × List Char)) with
    | none => (none : Option (Char × List Char))
    | some (m, rest4) =>
        if 56320 ≤ m ∧ m ≤ 57343 then some (surrogateChar hi m, rest4) else none)
      = if 56320 ≤ lo ∧ lo ≤ 57343 then some (surrogateChar hi lo, rest) else none from rfl]
  rw [if_pos hlo]

/-- Decoding one escaped character undoes the escaping. -/
theorem nextStrChar_escape (c : Char) (rest : List Char) :
    nextStrChar (escapeChar c ++ rest) = some (some c, rest) := by
  have hvalid := charValidNat c
  simp only [escapeChar]
  split_ifs with h1 h2 h3 h4 h5 h6 h7 h8 h9
  · subst h1; simp [nextStrChar, escMap]
  · subst h2; simp [nextStrChar, escMap]
  · rw [show c = Char.ofNat 8 from h3]; simp [nextStrChar, escMap]
  · rw [show c = Char.ofNat 12 from h4]; simp [nextStrChar, escMap]
  · subst h5; simp [nextStrChar, escMap]
  · subst h6; simp [nextStrChar, escMap]
  · subst h7; simp [nextStrChar, escMap]
  · -- printable ASCII other than quote and backslash: kept verbatim
    simp only [Bool.and_eq_true, decide_eq_true_eq] at h8
    have hnc : ¬ c.toNat < 0x20 := by omega
    simp only [List.cons_append, List.nil_append, nextStrChar,
      if_neg h1, if_neg h2, if_neg hnc]
  · -- BMP escape \uXXXX
    have hno : ¬ (0xD800 ≤ c.toNat ∧ c.toNat ≤ 0xDBFF) ∧
        ¬ (0xDC00 ≤ c.toNat ∧ c.toNat ≤ 0xDFFF) := by
      rcases hvalid with hv | hv <;> constructor <;> omega
    rw [List.cons_append, List.cons_append, nextStrChar_u,
      parseU_bmp c.toNat rest h9 hno.1 hno.2, Char.ofNat_toNat]
  · -- astral plane: surrogate pair escape
    have hhi : c.toNat < 1114112 := by
      rcases hvalid with hv | hv
      · omega
      · exact hv.2
    simp only [List.append_assoc, List.cons_append]
    rw [nextStrChar_u,
      parseU_pair (0xD800 + (c.toNat - 0x10000) / 0x400)
        (0xDC00 + (c.toNat - 0x10000) % 0x400) rest
        (by constructor <;> omega) (by constructor <;> omega)]
    have harg : surrogateChar (0xD800 + (c.toNat - 0x10000) / 0x400)
        (0xDC00 + (c.toNat - 0x10000) % 0x400) = c := by
      rw [surrogateChar]
      have h2 : 0x10000 + (0xD800 + (c.toNat - 0x10000) / 0x400 - 0xD800) * 0x400 +
          (0xDC00 + (c.toNat - 0x10000) % 0x400 - 0xDC00) = c.toNat := by omega
      rw [h2, Char.ofNat_toNat]
    rw [harg]

theorem escapeChar_length_pos (c : Char) : 1 ≤ (escapeChar c).length := by
  rw [escapeChar.eq_def]
  split_ifs <;> simp

theorem parseStringBody_run (cs : List Char) : ∀ (acc rest : List Char) (fuel : Nat),
    (cs.flatMap escapeChar).length < fuel →
    parseStringBody fuel acc (cs.flatMap escapeChar ++ '"' :: rest)
      = some (String.mk (acc.reverse ++ cs), rest) := by
  induction cs with
  | nil =>
      intro acc rest fuel hf
      cases fuel with
      | zero => exact absurd hf (Nat.not_lt_zero _)
      | succ f =>
          rw [List.flatMap_nil, List.nil_append,
            parseStringBody_close f acc _ rest (nextStrChar_quote rest)]
          simp
  | cons c cs ih =>
      intro acc rest fuel hf
      cases fuel with
      | zero => exact absurd hf (Nat.not_lt_zero _)
      | succ f =>
          rw [List.flatMap_cons, List.append_assoc,
            parseStringBody_char f acc _ _ c (nextStrChar_escape c _),
            ih (c :: acc) rest f (by
              have h9 := escapeChar_length_pos c
              simp only [List.flatMap_cons, List.length_append] at hf
              omega)]
          simp

/-- Scanning a dumped string recovers it exactly. -/
theorem parseStringBody_dumpStr (s : String) (rest : List Char) (fuel : Nat)
    (h : (s.toList.flatMap escapeChar).length < fuel) :
    parseStringBody fuel [] (s.toList.flatMap escapeChar ++ '"' :: rest)
      = some (s, rest) := by
  rw [parseStringBody_run _ _ _ _ h]
  simp

/-- The same, at the fuel the value parser passes. -/
theorem parseStringBody_dumpStr_caller (s : String) (rest : List Char) :
    parseStringBody ((s.toList.flatMap escapeChar ++ ('"' :: rest)).length + 1) []
      (s.toList.flatMap escapeChar ++ ('"' :: rest)) = some (s, rest) :=
  parseStringBody_dumpStr s rest _
    (by simp only [List.length_append, List.length_cons]; omega)

end MyCli

namespace MyCli

/-! ## Number codec round trip -/

/-- The head of the input cannot extend a run of digits. -/
def noDigitHead : List Char → Bool
  | [] => true
  | c :: _ => !(isDigitChar c)

/-- The head of the input cannot open a fraction group. -/
def noDotHead : List Char → Bool
  | [] => true
  | c :: _ => !(c = '.')

/-- The head of the input cannot open an exponent group. -/
def noExpHead : List Char → Bool
  | [] => true
  | c :: _ => !(c = 'e' || c = 'E')

/-- What can follow a value in the indented dump: a separator comma, the
newline of the indentation, a closing bracket, or the end of input.  None
of these can extend a number lexeme. -/
def stopOk : List Char → Bool
  | [] => true
  | c :: _ => c = ',' || c = '\n' || c = ']' || c = cbraceC

theorem stopOk_heads (rest : List Char) (h : stopOk rest = true) :
    noDigitHead rest = true ∧ noDotHead rest = true ∧ noExpHead rest = true := by
  cases rest with
  | nil => exact ⟨rfl, rfl, rfl⟩
  | cons c t =>
      simp only [stopOk, Bool.or_eq_true, decide_eq_true_eq] at h
      rcases h with ((h | h) | h) | h <;> subst h <;> exact ⟨rfl, rfl, rfl⟩

theorem spanDigits_sound (cs : List Char) : ∀ ds r, spanDigits cs = (ds, r) →
    cs = ds ++ r ∧ ds.all isDigitChar = true ∧ noDigitHead r = true := by
  induction cs with
  | nil =>
      intro ds r h
      cases h
      exact ⟨rfl, rfl, rfl⟩
  | cons c t ih =>
      intro ds r h
      simp only [spanDigits] at h
      by_cases hc : isDigitChar c = true
      · rw [if_pos hc] at h
        rcases hp : spanDigits t with ⟨ds1, r1⟩
        rw [hp] at h
        cases h
        obtain ⟨he, hall, hnd⟩ := ih ds1 r1 hp
        subst he
        exact ⟨rfl, by simp [List.all_cons, hc, hall], hnd⟩
      · rw [if_neg hc] at h
        cases h
        exact ⟨rfl, rfl, by simp [noDigitHead, hc]⟩

theorem spanDigits_append (ds rest : List Char) (hds : ds.all isDigitChar = true)
    (hrest : noDigitHead rest = true) : spanDigits (ds ++ rest) = (ds, rest) := by
  induction ds with
  | nil =>
      cases rest with
      | nil => rfl
      | cons c t =>
          simp only [noDigitHead, Bool.not_eq_true'] at hrest
          simp [spanDigits, hrest]
  | cons c t ih =>
      simp only [List.all_cons, Bool.and_eq_true] at hds
      simp [spanDigits, hds.1, ih hds.2]

theorem expTail_run (t rest : List Char) (h : expEnd t = true)
    (hstop : noDigitHead rest = true) : expTail (t ++ rest) = some (t, rest) := by
  cases t with
  | nil => cases h
  | cons s t1 =>
      simp only [expEnd] at h
      by_cases hs : (s = '+' || s = '-') = true
      · rw [if_pos hs] at h
        simp only [digitsEnd, Bool.and_eq_true, Bool.not_eq_true'] at h
        have hne : t1 ≠ [] := by
          rcases h with ⟨h1, -⟩
          simpa [List.isEmpty_iff] using h1
        have hall : t1.all isDigitChar = true := h.2
        simp only [List.cons_append, expTail, if_pos hs]
        rw [spanDigits_append t1 rest hall hstop]
        cases t1 with
        | nil => exact absurd rfl hne
        | cons d t2 => rfl
      · rw [if_neg hs] at h
        simp only [digitsEnd, Bool.and_eq_true, Bool.not_eq_true'] at h
        have hall : (s :: t1).all isDigitChar = true := h.2
        simp only [List.cons_append, expTail, if_neg hs]
        rw [show s :: (t1 ++ rest) = (s :: t1) ++ rest from rfl,
          spanDigits_append (s :: t1) rest hall hstop]

theorem expTail_sound (cs : List Char) (t r : List Char)
    (h : expTail cs = some (t, r)) :
    cs = t ++ r ∧ expEnd t = true ∧ noDigitHead r = true := by
  cases cs with
  | nil => cases h
  | cons s r1 =>
      simp only [expTail] at h
      by_cases hs : (s = '+' || s = '-') = true
      · rw [if_pos hs] at h
        rcases hp : spanDigits r1 with ⟨ds, r2⟩
        rw [hp] at h
        obtain ⟨he, hall, hnd⟩ := spanDigits_sound r1 ds r2 hp
        cases ds with
        | nil => simp at h
        | cons d ds1 =>
            simp only at h
            cases h
            subst he
            refine ⟨rfl, ?_, hnd⟩
            simp [expEnd, hs, digitsEnd, hall]
      · rw [if_neg hs] at h
        rcases hp : spanDigits (s :: r1) with ⟨ds, r2⟩
        rw [hp] at h
        obtain ⟨he, hall, hnd⟩ := spanDigits_sound (s :: r1) ds r2 hp
        cases ds with
        | nil => simp at h
        | cons d ds1 =>
            simp only at h
            cases h
            refine ⟨he, ?_, hnd⟩
            have hsd : s = d := by
              have h2 : s :: r1 = d :: (ds1 ++ r) := by simpa using he
              injection h2
            subst hsd
            simp [expEnd, hs, digitsEnd, hall]

theorem fracPart_run_dot (d : Char) (ds rest : List Char) (hd : isDigitChar d = true)
    (hds : ds.all isDigitChar = true) (hrest : noDigitHead rest = true) :
    fracPart (('.' :: d :: ds) ++ rest) = ('.' :: d :: ds, rest) := by
  simp only [List.cons_append, fracPart]
  rw [if_pos (by simp [hd])]
  rw [spanDigits_append ds rest hds hrest]

theorem fracPart_nodot (cs : List Char) (h : noDotHead cs = true) :
    fracPart cs = ([], cs) := by
  match cs with
  | [] => rfl
  | [c] => rfl
  | c :: d :: r =>
      simp only [noDotHead, Bool.not_eq_true'] at h
      simp [fracPart, h]

theorem expPart_run (e : Char) (t rest : List Char) (he : (e = 'e' || e = 'E') = true)
    (ht : expEnd t = true) (hstop : noDigitHead rest = true) :
    expPart ((e :: t) ++ rest) = (e :: t, rest) := by
  simp only [List.cons_append, expPart, if_pos he]
  rw [expTail_run t rest ht hstop]

theorem expPart_noe (cs : List Char) (h : noExpHead cs = true) :
    expPart cs = ([], cs) := by
  match cs with
  | [] => rfl
  | e :: r =>
      simp only [noExpHead, Bool.not_eq_true'] at h
      simp [expPart, h]

theorem fracExp_runEnd (pre cs2 rest : List Char) (h : fracExpEnd cs2 = true)
    (hstop : stopOk rest = true) : fracExp pre (cs2 ++ rest) = (pre ++ cs2, rest) := by
  obtain ⟨hnd, hndot, hnoe⟩ := stopOk_heads rest hstop
  match cs2 with
  | [] =>
      simp [fracExp, fracPart_nodot rest hndot, expPart_noe rest hnoe]
  | c :: r =>
      by_cases hc : c = '.'
      · subst hc
        rw [fracExpEnd, if_pos rfl] at h
        rcases hp : spanDigits r with ⟨ds0, r2⟩
        rw [hp] at h
        obtain ⟨he, hall, hnd2⟩ := spanDigits_sound r ds0 r2 hp
        simp only [Bool.and_eq_true, Bool.not_eq_true'] at h
        obtain ⟨hne, hppe⟩ := h
        cases ds0 with
        | nil => simp at hne
        | cons d ds =>
            subst he
            have hd : isDigitChar d = true := by
              simp only [List.all_cons, Bool.and_eq_true] at hall
              exact hall.1
            have hds : ds.all isDigitChar = true := by
              simp only [List.all_cons, Bool.and_eq_true] at hall
              exact hall.2
            have hndr : noDigitHead (r2 ++ rest) = true := by
              cases r2 with
              | nil => exact hnd
              | cons x t => exact hnd2
            have hshape : ('.' :: (d :: ds ++ r2)) ++ rest
                = ('.' :: d :: ds) ++ (r2 ++ rest) := by simp
            rw [fracExp, hshape, fracPart_run_dot d ds (r2 ++ rest) hd hds hndr]
            cases r2 with
            | nil =>
                rw [show (('.' :: d :: ds, ([] : List Char) ++ rest) :
                    List Char × List Char).2 = rest by simp]
                rw [expPart_noe rest hnoe]
                simp
            | cons e t =>
                simp only [expPartEnd, Bool.and_eq_true] at hppe
                rw [show (('.' :: d :: ds, (e :: t) ++ rest) :
                    List Char × List Char).2 = (e :: t) ++ rest from rfl]
                rw [expPart_run e t rest hppe.1 hppe.2 hnd]
                simp
      · have hfe : expPartEnd (c :: r) = true := by
          rw [fracExpEnd, if_neg hc] at h
          exact h
        simp only [expPartEnd, Bool.and_eq_true] at hfe
        have hndotc : noDotHead ((c :: r) ++ rest) = true := by
          simp [noDotHead, hc]
        rw [fracExp, fracPart_nodot _ hndotc]
        rw [show ((([] : List Char), (c :: r) ++ rest) :
            List Char × List Char).2 = (c :: r) ++ rest from rfl]
        rw [expPart_run c r rest hfe.1 hfe.2 hnd]
        simp

theorem fracExpEnd_noDigitHead (fe : List Char) (h : fracExpEnd fe = true) :
    noDigitHead fe = true := by
  cases fe with
  | nil => rfl
  | cons c r =>
      by_cases hc : c = '.'
      · subst hc; rfl
      · rw [fracExpEnd, if_neg hc] at h
        simp only [expPartEnd, Bool.and_eq_true, Bool.or_eq_true, decide_eq_true_eq] at h
        rcases h.1 with h1 | h1 <;> subst h1 <;> rfl

theorem numLexCore_run (sgn cs1 rest : List Char) (hb : numBodyCore cs1 = true)
    (hstop : stopOk rest = true) :
    numLexCore sgn (cs1 ++ rest) = some (sgn ++ cs1, rest) := by
  obtain ⟨hnd, -, -⟩ := stopOk_heads rest hstop
  cases cs1 with
  | nil => cases hb
  | cons c r =>
      rw [numBodyCore] at hb
      by_cases h0 : c = '0'
      · subst h0
        rw [if_pos rfl] at hb
        simp only [List.cons_append, numLexCore, if_pos rfl]
        rw [fracExp_runEnd (sgn ++ ['0']) r rest hb hstop]
        simp
      · rw [if_neg h0] at hb
        simp only [Bool.and_eq_true] at hb
        obtain ⟨hdig, hfe⟩ := hb
        rcases hp : spanDigits r with ⟨ds, r2⟩
        rw [hp] at hfe
        simp only at hfe
        obtain ⟨he, hall, hnd2⟩ := spanDigits_sound r ds r2 hp
        have hndr : noDigitHead (r2 ++ rest) = true := by
          cases r2 with
          | nil => exact hnd
          | cons x t => exact hnd2
        have hsp : spanDigits (r ++ rest) = (ds, r2 ++ rest) := by
          rw [he, List.append_assoc]
          exact spanDigits_append ds (r2 ++ rest) hall hndr
        simp only [List.cons_append, numLexCore, if_neg h0, if_pos hdig, hsp]
        rw [fracExp_runEnd (sgn ++ c :: ds) r2 rest hfe hstop]
        rw [he]
        simp

/-- A full regex match scans to exactly the lexeme, wherever a value
delimiter follows. -/
theorem numLex_run (cs rest : List Char) (hb : numBody cs = true)
    (hstop : stopOk rest = true) : numLex (cs ++ rest) = some (cs, rest) := by
  cases cs with
  | nil => cases hb
  | cons c0 r0 =>
      rw [numBody] at hb
      by_cases hm : c0 = '-'
      · subst hm
        rw [if_pos rfl] at hb
        cases r0 with
        | nil => cases hb
        | cons c r =>
            simp only [List.cons_append, numLex, if_pos rfl]
            have := numLexCore_run ['-'] (c :: r) rest hb hstop
            simpa using this
      · rw [if_neg hm] at hb
        simp only [List.cons_append, numLex, if_neg hm]
        have := numLexCore_run [] (c0 :: r0) rest hb hstop
        simpa using this

theorem fracPart_sound (cs fr mid : List Char) (h : fracPart cs = (fr, mid)) :
    (fr = [] ∧ mid = cs) ∨
    (∃ d ds, fr = '.' :: d :: ds ∧ isDigitChar d = true ∧ ds.all isDigitChar = true ∧
      cs = fr ++ mid ∧ noDigitHead mid = true) := by
  match cs with
  | [] => cases h; left; exact ⟨rfl, rfl⟩
  | [c] => cases h; left; exact ⟨rfl, rfl⟩
  | c :: d :: r =>
      rw [fracPart] at h
      by_cases hcd : (c = '.' && isDigitChar d) = true
      · rw [if_pos hcd] at h
        simp only [Bool.and_eq_true, decide_eq_true_eq] at hcd
        rcases hp : spanDigits r with ⟨ds, r2⟩
        rw [hp] at h
        simp only at h
        cases h
        obtain ⟨he, hall, hnd⟩ := spanDigits_sound r ds mid hp
        right
        refine ⟨d, ds, rfl, hcd.2, hall, ?_, hnd⟩
        simp [hcd.1, he]
      · rw [if_neg hcd] at h
        cases h
        left; exact ⟨rfl, rfl⟩

theorem expPart_sound (cs ex r : List Char) (h : expPart cs = (ex, r)) :
    (ex = [] ∧ r = cs) ∨
    (∃ e t, ex = e :: t ∧ (e = 'e' || e = 'E') = true ∧ expEnd t = true ∧
      cs = ex ++ r ∧ noDigitHead r = true) := by
  match cs with
  | [] => cases h; left; exact ⟨rfl, rfl⟩
  | e :: r1 =>
      rw [expPart] at h
      by_cases he : (e = 'e' || e = 'E') = true
      · rw [if_pos he] at h
        cases ht : expTail r1 with
        | none => rw [ht] at h; cases h; left; exact ⟨rfl, rfl⟩
        | some tr =>
            obtain ⟨t, r2⟩ := tr
            rw [ht] at h
            simp only at h
            cases h
            obtain ⟨he2, hee, hnd⟩ := expTail_sound r1 t r ht
            right
            exact ⟨e, t, rfl, he, hee, by simp [he2], hnd⟩
      · rw [if_neg he] at h
        cases h
        left; exact ⟨rfl, rfl⟩

theorem fracExp_sound (pre cs : List Char) :
    ∃ fe cs3, fracExp pre cs = (pre ++ fe, cs3) ∧ fracExpEnd fe = true := by
  rcases hfp : fracPart cs with ⟨fr, mid⟩
  rcases hep : expPart mid with ⟨ex, cs3⟩
  have hout : fracExp pre cs = (pre ++ fr ++ ex, cs3) := by
    rw [fracExp, hfp]
    simp only
    rw [hep]
  refine ⟨fr ++ ex, cs3, by simpa [List.append_assoc] using hout, ?_⟩
  have hexEnd : fracExpEnd ex = true := by
    rcases expPart_sound mid ex cs3 hep with ⟨he1, -⟩ | ⟨e, t, he1, hee, het, -, -⟩
    · subst he1; rfl
    · subst he1
      have hne : ¬ (e = '.') := by
        simp only [Bool.or_eq_true, decide_eq_true_eq] at hee
        rcases hee with h | h <;> subst h <;> decide
      rw [fracExpEnd, if_neg hne]
      simp [expPartEnd, hee, het]
  have hexPartEnd : expPartEnd ex = true := by
    rcases expPart_sound mid ex cs3 hep with ⟨he1, -⟩ | ⟨e, t, he1, hee, het, -, -⟩
    · subst he1; rfl
    · subst he1
      simp [expPartEnd, hee, het]
  have hexNd : noDigitHead ex = true := by
    rcases expPart_sound mid ex cs3 hep with ⟨he1, -⟩ | ⟨e, t, he1, hee, het, -, -⟩
    · subst he1; rfl
    · subst he1
      simp only [Bool.or_eq_true, decide_eq_true_eq] at hee
      rcases hee with h | h <;> subst h <;> rfl
  rcases fracPart_sound cs fr mid hfp with ⟨he1, -⟩ | ⟨d, ds, he1, hd, hds, -, -⟩
  · subst he1
    simpa using hexEnd
  · subst he1
    simp only [List.cons_append, List.append_assoc]
    rw [fracExpEnd, if_pos rfl]
    rw [show (d :: (ds ++ ex) : List Char) = (d :: ds) ++ ex from rfl]
    rw [spanDigits_append (d :: ds) ex (by simp [List.all_cons, hd, hds]) hexNd]
    simp [hexPartEnd]

theorem numBodyCore_head (core : List Char) (h : numBodyCore core = true) :
    ∃ c r, core = c :: r ∧ isDigitChar c = true := by
  cases core with
  | nil => cases h
  | cons c r =>
      rw [numBodyCore] at h
      by_cases h0 : c = '0'
      · exact ⟨c, r, rfl, by rw [h0]; decide⟩
      · rw [if_neg h0] at h
        simp only [Bool.and_eq_true] at h
        exact ⟨c, r, rfl, h.1⟩

theorem numLexCore_sound (sgn cs1 lex r : List Char)
    (h : numLexCore sgn cs1 = some (lex, r)) :
    ∃ core, lex = sgn ++ core ∧ numBodyCore core = true := by
  cases cs1 with
  | nil => cases h
  | cons c r1 =>
      rw [numLexCore] at h
      by_cases h0 : c = '0'
      · subst h0
        rw [if_pos rfl] at h
        obtain ⟨fe, cs3, hout, hfe⟩ := fracExp_sound (sgn ++ ['0']) r1
        rw [hout] at h
        cases h
        refine ⟨'0' :: fe, by simp, ?_⟩
        rw [numBodyCore, if_pos rfl]
        exact hfe
      · rw [if_neg h0] at h
        by_cases hd : isDigitChar c = true
        · rw [if_pos hd] at h
          rcases hp : spanDigits r1 with ⟨ds, r2⟩
          rw [hp] at h
          simp only at h
          obtain ⟨he, hall, hnd⟩ := spanDigits_sound r1 ds r2 hp
          obtain ⟨fe, cs3, hout, hfe⟩ := fracExp_sound (sgn ++ c :: ds) r2
          rw [hout] at h
          cases h
          refine ⟨c :: (ds ++ fe), by simp, ?_⟩
          rw [numBodyCore, if_neg h0]
          simp only [Bool.and_eq_true]
          refine ⟨hd, ?_⟩
          rw [spanDigits_append ds fe hall (fracExpEnd_noDigitHead fe hfe)]
          exact hfe
        · rw [if_neg hd] at h
          cases h

/-- Every lexeme the scanner accepts is a full regex match. -/
theorem numLex_sound (cs0 lex r : List Char) (h : numLex cs0 = some (lex, r)) :
    numBody lex = true := by
  cases cs0 with
  | nil => cases h
  | cons c0 r0 =>
      rw [numLex] at h
      by_cases hm : c0 = '-'
      · rw [if_pos hm] at h
        obtain ⟨core, hl, hcore⟩ := numLexCore_sound ['-'] r0 lex r h
        subst hl
        rw [show (['-'] ++ core : List Char) = '-' :: core from rfl, numBody, if_pos rfl]
        exact hcore
      · rw [if_neg hm] at h
        obtain ⟨core2, hl, hcore⟩ := numLexCore_sound [] (c0 :: r0) lex r h
        have hl2 : lex = core2 := by simpa using hl
        rw [hl2]
        obtain ⟨c, rr, hc, hdig⟩ := numBodyCore_head core2 hcore
        subst hc
        have hcm : ¬ (c = '-') := by
          intro hcm
          rw [hcm] at hdig
          cases hdig
        rw [numBody, if_neg hcm]
        exact hcore

/-! ## Dump shape lemmas -/

theorem skipWs_cons_not (c : Char) (y : List Char) (h : isWsChar c = false) :
    skipWs (c :: y) = c :: y := by
  simp [skipWs, h]

theorem skipWs_replicate_space (n : Nat) (x : List Char) :
    skipWs (List.replicate n ' ' ++ x) = skipWs x := by
  induction n with
  | zero => rfl
  | succ m ih => simpa [List.replicate_succ, skipWs, isWsChar] using ih

theorem skipWs_nlIndent (lvl : Nat) (x : List Char) :
    skipWs (nlIndent lvl ++ x) = skipWs x := by
  simp only [nlIndent, List.cons_append, skipWs, isWsChar]
  rw [if_pos (by decide)]
  exact skipWs_replicate_space (2 * lvl) x

theorem skipWs_nil_lead (z : List Char) : skipWs (([] : List Char) ++ z) = skipWs z := rfl

theorem skipWs_space_lead (z : List Char) : skipWs (([' '] : List Char) ++ z) = skipWs z := by
  simp [skipWs, isWsChar]

theorem digit_not_special (c : Char) (h : isDigitChar c = true) :
    isWsChar c = false ∧ ¬ (c = ']') ∧ ¬ (c = '"') ∧ ¬ (c = obraceC) ∧ ¬ (c = '[') ∧
    ¬ (c = 'n') ∧ ¬ (c = 't') ∧ ¬ (c = 'f') := by
  refine ⟨?_, ?_, ?_, ?_, ?_, ?_, ?_, ?_⟩
  · cases hw : isWsChar c with
    | false => rfl
    | true =>
        exfalso
        simp only [isWsChar, Bool.or_eq_true, decide_eq_true_eq] at hw
        rcases hw with ((hc | hc) | hc) | hc
        all_goals (subst hc; cases h)
  all_goals (intro hc; subst hc; cases h)

/-- A regex-matching lexeme starts with a minus sign or a digit. -/
theorem numBody_head (cs : List Char) (h : numBody cs = true) :
    ∃ c r, cs = c :: r ∧ (c = '-' ∨ isDigitChar c = true) := by
  cases cs with
  | nil => cases h
  | cons c r =>
      by_cases hm : c = '-'
      · exact ⟨c, r, rfl, Or.inl hm⟩
      · rw [numBody, if_neg hm] at h
        obtain ⟨c2, r2, hc, hd⟩ := numBodyCore_head (c :: r) h
        have hcc : c2 = c := by injection hc with h1 h2; exact h1.symm
        rw [hcc] at hd
        exact ⟨c, r, rfl, Or.inr hd⟩

/-- The first character of a dumped well-formed value: never whitespace and
never a closing bracket, so array parsing is not fooled. -/
theorem dumpVal_head (j : Json) (lvl : Nat) (hwf : jsonWf j = true) :
    ∃ c t, dumpVal j lvl = c :: t ∧ isWsChar c = false ∧ ¬ (c = ']') := by
  cases j with
  | null => exact ⟨'n', _, rfl, by decide, by decide⟩
  | bool b => cases b with
      | true => exact ⟨'t', _, rfl, by decide, by decide⟩
      | false => exact ⟨'f', _, rfl, by decide, by decide⟩
  | str s =>
      exact ⟨'"', s.toList.flatMap escapeChar ++ ['"'], by rw [dumpVal, dumpStr], by decide,
        by decide⟩
  | arr xs => cases xs with
      | nil => exact ⟨'[', _, rfl, by decide, by decide⟩
      | cons x t => exact ⟨'[', _, rfl, by decide, by decide⟩
  | obj kvs => cases kvs with
      | nil => exact ⟨obraceC, _, rfl, by decide, by decide⟩
      | cons kv t =>
          obtain ⟨k, v⟩ := kv
          exact ⟨obraceC, _, rfl, by decide, by decide⟩
  | num lx =>
      rw [jsonWf] at hwf
      simp only [numLexOk, Bool.or_eq_true, beq_iff_eq] at hwf
      rcases hwf with ((hl | hl) | hl) | hl
      · subst hl; exact ⟨'N', _, rfl, by decide, by decide⟩
      · subst hl; exact ⟨'I', _, rfl, by decide, by decide⟩
      · subst hl; exact ⟨'-', _, rfl, by decide, by decide⟩
      · obtain ⟨c, r, hc, hd⟩ := numBody_head lx.toList hl
        refine ⟨c, r, by rw [dumpVal]; exact hc, ?_, ?_⟩
        · rcases hd with hd | hd
          · subst hd; decide
          · exact (digit_not_special c hd).1
        · rcases hd with hd | hd
          · subst hd; decide
          · exact (digit_not_special c hd).2.1

theorem nlIndent_length (lvl : Nat) : (nlIndent lvl).length = 2 * lvl + 1 := by
  simp [nlIndent]

theorem dumpStr_length (s : String) : 2 ≤ (dumpStr s).length := by
  simp [dumpStr]

set_option maxHeartbeats 1000000 in
mutual
/-- Parsing recovers a dumped well-formed value: leading whitespace-only
prefix, then the dump, then any stop-headed rest. -/
theorem rt_val (j : Json) (fuel lvl : Nat) (w rest : List Char)
    (hwf : jsonWf j = true)
    (hw : ∀ z, skipWs (w ++ z) = skipWs z)
    (hfuel : (dumpVal j lvl).length < fuel)
    (hstop : stopOk rest = true) :
    parseVal fuel (w ++ (dumpVal j lvl ++ rest)) = some (j, rest) := by
  cases fuel with
  | zero => exact absurd hfuel (Nat.not_lt_zero _)
  | succ f =>
    cases j with
    | null =>
        have h1 : skipWs (w ++ (dumpVal Json.null lvl ++ rest))
            = 'n' :: ('u' :: 'l' :: 'l' :: rest) := by
          rw [hw]; exact skipWs_cons_not _ _ (by decide)
        simp only [parseVal, h1]
        simp [obraceC]
    | bool b =>
        cases b with
        | true =>
            have h1 : skipWs (w ++ (dumpVal (Json.bool true) lvl ++ rest))
                = 't' :: ('r' :: 'u' :: 'e' :: rest) := by
              rw [hw]; exact skipWs_cons_not _ _ (by decide)
            simp only [parseVal, h1]
            simp [obraceC]
        | false =>
            have h1 : skipWs (w ++ (dumpVal (Json.bool false) lvl ++ rest))
                = 'f' :: ('a' :: 'l' :: 's' :: 'e' :: rest) := by
              rw [hw]; exact skipWs_cons_not _ _ (by decide)
            simp only [parseVal, h1]
            simp [obraceC]
    | str s =>
        have h1 : skipWs (w ++ (dumpVal (Json.str s) lvl ++ rest))
            = '"' :: (s.toList.flatMap escapeChar ++ ('"' :: rest)) := by
          rw [hw]
          have h0 : dumpVal (Json.str s) lvl ++ rest
              = '"' :: (s.toList.flatMap escapeChar ++ ('"' :: rest)) := by
            simp [dumpVal, dumpStr]
          rw [h0]
          exact skipWs_cons_not _ _ (by decide)
        simp only [parseVal, h1]
        simp only [parseStringBody_dumpStr_caller]
        simp
    | num lx =>
        rw [jsonWf] at hwf
        simp only [numLexOk, Bool.or_eq_true, beq_iff_eq] at hwf
        rcases hwf with ((hl | hl) | hl) | hl
        · subst hl
          have h1 : skipWs (w ++ (dumpVal (Json.num "NaN") lvl ++ rest))
              = 'N' :: ('a' :: 'N' :: rest) := by
            rw [hw]; exact skipWs_cons_not _ _ (by decide)
          simp only [parseVal, h1]
          simp [obraceC, isDigitChar]
        · subst hl
          have h1 : skipWs (w ++ (dumpVal (Json.num "Infinity") lvl ++ rest))
              = 'I' :: ('n' :: 'f' :: 'i' :: 'n' :: 'i' :: 't' :: 'y' :: rest) := by
            rw [hw]; exact skipWs_cons_not _ _ (by decide)
          simp only [parseVal, h1]
          simp [obraceC, isDigitChar]
        · subst hl
          have h1 : skipWs (w ++ (dumpVal (Json.num "-Infinity") lvl ++ rest))
              = '-' :: ('I' :: 'n' :: 'f' :: 'i' :: 'n' :: 'i' :: 't' :: 'y' :: rest) := by
            rw [hw]; exact skipWs_cons_not _ _ (by decide)
          simp only [parseVal, h1]
          simp [obraceC, isDigitChar, numLex, numLexCore]
        · obtain ⟨c, r, hc, hd⟩ := numBody_head lx.toList hl
          rw [hc] at hl
          have hns : isWsChar c = false := by
            rcases hd with hd | hd
            · subst hd; decide
            · exact (digit_not_special c hd).1
          have h1 : skipWs (w ++ (dumpVal (Json.num lx) lvl ++ rest)) = c :: (r ++ rest) := by
            rw [hw]
            have h2 : dumpVal (Json.num lx) lvl ++ rest = c :: (r ++ rest) := by
              rw [show dumpVal (Json.num lx) lvl = lx.toList from rfl, hc]; rfl
            rw [h2]
            exact skipWs_cons_not _ _ hns
          have hnum : numLex (c :: (r ++ rest)) = some (c :: r, rest) := by
            have h3 := numLex_run (c :: r) rest hl hstop
            simpa using h3
          simp only [parseVal, h1]
          rcases hd with hd | hd
          · subst hd
            rw [if_neg (by decide : ¬ (('-' : Char) = '"')),
              if_neg (by decide : ¬ (('-' : Char) = obraceC)),
              if_neg (by decide : ¬ (('-' : Char) = '[')),
              if_neg (by decide : ¬ (('-' : Char) = 'n')),
              if_neg (by decide : ¬ (('-' : Char) = 't')),
              if_neg (by decide : ¬ (('-' : Char) = 'f')),
              if_pos (by decide : (decide (('-' : Char) = '-') || isDigitChar '-') = true),
              hnum, ← hc]
            rfl
          · obtain ⟨hq1, hq2, hq3, hq4, hq5, hq6, hq7, hq8⟩ := digit_not_special c hd
            rw [if_neg hq3, if_neg hq4, if_neg hq5, if_neg hq6, if_neg hq7, if_neg hq8,
              if_pos (by simp [hd] : (decide (c = '-') || isDigitChar c) = true),
              hnum, ← hc]
            rfl
    | arr xs =>
        cases xs with
        | nil =>
            have h1 : skipWs (w ++ (dumpVal (Json.arr []) lvl ++ rest))
                = '[' :: (']' :: rest) := by
              rw [hw]; exact skipWs_cons_not _ _ (by decide)
            simp only [parseVal, h1]
            simp [obraceC, skipWs, isWsChar]
        | cons x xs =>
            simp only [jsonWf, jsonWfL, Bool.and_eq_true] at hwf
            obtain ⟨hwx, hwxs⟩ := hwf
            obtain ⟨c2, t, hx, hns, hnb⟩ := dumpVal_head x (lvl + 1) hwx
            have h0 : dumpVal (Json.arr (x :: xs)) lvl ++ rest
                = '[' :: (nlIndent (lvl + 1) ++ (dumpVal x (lvl + 1) ++
                  (dumpArrTail xs (lvl + 1) ++ (nlIndent lvl ++ (']' :: rest))))) := by
              simp only [dumpVal]
              simp [List.append_assoc]
            have h1 : skipWs (w ++ (dumpVal (Json.arr (x :: xs)) lvl ++ rest))
                = '[' :: (nlIndent (lvl + 1) ++ (dumpVal x (lvl + 1) ++
                  (dumpArrTail xs (lvl + 1) ++ (nlIndent lvl ++ (']' :: rest))))) := by
              rw [hw, h0]
              exact skipWs_cons_not _ _ (by decide)
            have hfe : (dumpVal x (lvl + 1)).length + (dumpArrTail xs (lvl + 1)).length + 2
                ≤ f := by
              simp only [dumpVal, List.length_cons, List.length_append, nlIndent_length,
                List.length_singleton] at hfuel
              omega
            simp only [parseVal, h1]
            rw [if_neg (by decide : ¬ (('[' : Char) = '"')),
              if_neg (by decide : ¬ (('[' : Char) = obraceC))]
            simp only [if_true]
            have h2 : skipWs (nlIndent (lvl + 1) ++ (dumpVal x (lvl + 1) ++
                (dumpArrTail xs (lvl + 1) ++ (nlIndent lvl ++ (']' :: rest)))))
                = c2 :: (t ++ (dumpArrTail xs (lvl + 1) ++ (nlIndent lvl ++ (']' :: rest)))) := by
              rw [skipWs_nlIndent, hx]
              exact skipWs_cons_not _ _ hns
            rw [h2]
            simp only [if_neg hnb]
            have h3 : (c2 :: (t ++ (dumpArrTail xs (lvl + 1) ++ (nlIndent lvl ++ (']' :: rest)))))
                = [] ++ (dumpVal x (lvl + 1) ++
                  (dumpArrTail xs (lvl + 1) ++ (nlIndent lvl ++ (']' :: rest)))) := by
              rw [hx]; rfl
            rw [h3, rt_elems x xs f (lvl + 1) lvl [] rest hwx hwxs (fun z => rfl) hfe]
    | obj kvs =>
        cases kvs with
        | nil =>
            have h1 : skipWs (w ++ (dumpVal (Json.obj []) lvl ++ rest))
                = obraceC :: (cbraceC :: rest) := by
              rw [hw]; exact skipWs_cons_not _ _ (by decide)
            simp only [parseVal, h1]
            simp [obraceC, cbraceC, skipWs, isWsChar]
        | cons kv ms =>
            obtain ⟨k, v⟩ := kv
            simp only [jsonWf, Bool.and_eq_true] at hwf
            obtain ⟨hkf, hwk⟩ := hwf
            simp only [jsonWfK, Bool.and_eq_true] at hwk
            obtain ⟨hwv, hwms⟩ := hwk
            have h0 : dumpVal (Json.obj ((k, v) :: ms)) lvl ++ rest
                = obraceC :: (nlIndent (lvl + 1) ++ (dumpStr k ++ (':' :: ' ' ::
                  (dumpVal v (lvl + 1) ++ (dumpObjTail ms (lvl + 1) ++
                    (nlIndent lvl ++ (cbraceC :: rest))))))) := by
              simp only [dumpVal]
              simp [List.append_assoc]
            have h1 : skipWs (w ++ (dumpVal (Json.obj ((k, v) :: ms)) lvl ++ rest))
                = obraceC :: (nlIndent (lvl + 1) ++ (dumpStr k ++ (':' :: ' ' ::
                  (dumpVal v (lvl + 1) ++ (dumpObjTail ms (lvl + 1) ++
                    (nlIndent lvl ++ (cbraceC :: rest))))))) := by
              rw [hw, h0]
              exact skipWs_cons_not _ _ (by decide)
            have hfm : (dumpVal v (lvl + 1)).length + (dumpObjTail ms (lvl + 1)).length + 2
                ≤ f := by
              simp only [dumpVal, List.length_cons, List.length_append, nlIndent_length,
                List.length_singleton] at hfuel
              omega
            simp only [parseVal, h1]
            rw [if_neg (by decide : ¬ (obraceC = '"'))]
            simp only [if_true]
            have h2 : skipWs (nlIndent (lvl + 1) ++ (dumpStr k ++ (':' :: ' ' ::
                (dumpVal v (lvl + 1) ++ (dumpObjTail ms (lvl + 1) ++
                  (nlIndent lvl ++ (cbraceC :: rest)))))))
                = '"' :: (k.toList.flatMap escapeChar ++ ['"'] ++ (':' :: ' ' ::
                  (dumpVal v (lvl + 1) ++ (dumpObjTail ms (lvl + 1) ++
                    (nlIndent lvl ++ (cbraceC :: rest)))))) := by
              rw [skipWs_nlIndent]
              exact skipWs_cons_not _ _ (by decide)
            rw [h2]
            simp only [if_neg (by decide : ¬ (('"' : Char) = cbraceC))]
            have h3 : ('"' :: (k.toList.flatMap escapeChar ++ ['"'] ++ (':' :: ' ' ::
                (dumpVal v (lvl + 1) ++ (dumpObjTail ms (lvl + 1) ++
                  (nlIndent lvl ++ (cbraceC :: rest)))))))
                = dumpStr k ++ (':' :: ' ' :: (dumpVal v (lvl + 1) ++
                  (dumpObjTail ms (lvl + 1) ++ (nlIndent lvl ++ (cbraceC :: rest))))) := rfl
            rw [h3, rt_members k v ms f (lvl + 1) lvl rest hwv hwms hfm]
            simp [buildDict_fresh ((k, v) :: ms) hkf]

termination_by fuel

/-- Parsing recovers a dumped nonempty element list followed by the closing
newline-indent and bracket. -/
theorem rt_elems (x : Json) (xs : List Json) (fuel lvl lvl2 : Nat) (w rest : List Char)
    (hwf : jsonWf x = true) (hwfl : jsonWfL xs = true)
    (hw : ∀ z, skipWs (w ++ z) = skipWs z)
    (hfuel : (dumpVal x lvl).length + (dumpArrTail xs lvl).length + 2 ≤ fuel) :
    parseElems fuel (w ++ (dumpVal x lvl ++ (dumpArrTail xs lvl ++
      (nlIndent lvl2 ++ (']' :: rest))))) = some (x :: xs, rest) := by
  cases fuel with
  | zero => exact absurd hfuel (by omega)
  | succ f =>
    have hstop2 : stopOk (dumpArrTail xs lvl ++ (nlIndent lvl2 ++ (']' :: rest))) = true := by
      cases xs with
      | nil => rfl
      | cons a b => rfl
    have h1 := rt_val x f lvl w (dumpArrTail xs lvl ++ (nlIndent lvl2 ++ (']' :: rest)))
      hwf hw (by omega) hstop2
    simp only [parseElems, h1]
    cases xs with
    | nil =>
        simp only [dumpArrTail, List.nil_append, skipWs_nlIndent]
        rw [skipWs_cons_not _ _ (by decide)]
        simp
    | cons x2 xs2 =>
        simp only [jsonWfL, Bool.and_eq_true] at hwfl
        obtain ⟨hw2, hw2s⟩ := hwfl
        have hfe : (dumpVal x2 lvl).length + (dumpArrTail xs2 lvl).length + 2 ≤ f := by
          simp only [dumpArrTail, List.length_cons, List.length_append,
            nlIndent_length] at hfuel
          omega
        have h2 : (dumpArrTail (x2 :: xs2) lvl ++ (nlIndent lvl2 ++ (']' :: rest)))
            = ',' :: (nlIndent lvl ++ (dumpVal x2 lvl ++ (dumpArrTail xs2 lvl ++
              (nlIndent lvl2 ++ (']' :: rest))))) := by
          simp only [dumpArrTail]
          simp [List.append_assoc]
        rw [h2, skipWs_cons_not _ _ (by decide)]
        have h3 := rt_elems x2 xs2 f lvl lvl2 (nlIndent lvl) rest hw2 hw2s
          (skipWs_nlIndent lvl) hfe
        simp [h3]

termination_by fuel

/-- Parsing recovers a dumped nonempty member list followed by the closing
newline-indent and brace. -/
theorem rt_members (k : String) (v : Json) (ms : List (String × Json)) (fuel lvl lvl2 : Nat)
    (rest : List Char)
    (hwf : jsonWf v = true) (hwfk : jsonWfK ms = true)
    (hfuel : (dumpVal v lvl).length + (dumpObjTail ms lvl).length + 2 ≤ fuel) :
    parseMembers fuel (dumpStr k ++ (':' :: ' ' :: (dumpVal v lvl ++ (dumpObjTail ms lvl ++
      (nlIndent lvl2 ++ (cbraceC :: rest)))))) = some ((k, v) :: ms, rest) := by
  cases fuel with
  | zero => exact absurd hfuel (by omega)
  | succ f =>
    have hcs : dumpStr k ++ (':' :: ' ' :: (dumpVal v lvl ++ (dumpObjTail ms lvl ++
        (nlIndent lvl2 ++ (cbraceC :: rest)))))
        = '"' :: (k.toList.flatMap escapeChar ++ ['"'] ++ (':' :: ' ' ::
          (dumpVal v lvl ++ (dumpObjTail ms lvl ++ (nlIndent lvl2 ++ (cbraceC :: rest)))))) :=
      rfl
    have hpp : (k.toList.flatMap escapeChar ++ ['"'] ++ (':' :: ' ' ::
        (dumpVal v lvl ++ (dumpObjTail ms lvl ++ (nlIndent lvl2 ++ (cbraceC :: rest))))))
        = k.toList.flatMap escapeChar ++ ('"' :: (':' :: ' ' ::
          (dumpVal v lvl ++ (dumpObjTail ms lvl ++ (nlIndent lvl2 ++ (cbraceC :: rest)))))) := by
      simp
    have hstopv : stopOk (dumpObjTail ms lvl ++ (nlIndent lvl2 ++ (cbraceC :: rest))) = true := by
      cases ms with
      | nil => rfl
      | cons kv2 ms2 =>
          obtain ⟨k2, v2⟩ := kv2
          rfl
    have hv : parseVal f (' ' :: (dumpVal v lvl ++ (dumpObjTail ms lvl ++
        (nlIndent lvl2 ++ (cbraceC :: rest)))))
        = some (v, dumpObjTail ms lvl ++ (nlIndent lvl2 ++ (cbraceC :: rest))) := by
      have h4 := rt_val v f lvl [' ']
        (dumpObjTail ms lvl ++ (nlIndent lvl2 ++ (cbraceC :: rest)))
        hwf skipWs_space_lead (by omega) hstopv
      simpa using h4
    simp only [parseMembers, hcs, hpp, parseStringBody_dumpStr_caller]
    rw [skipWs_cons_not _ _ (by decide)]
    simp only [hv]
    cases ms with
    | nil =>
        simp only [dumpObjTail, List.nil_append, skipWs_nlIndent]
        rw [skipWs_cons_not _ _ (by decide)]
        simp [cbraceC]
    | cons kv2 ms2 =>
        obtain ⟨k2, v2⟩ := kv2
        simp only [jsonWfK, Bool.and_eq_true] at hwfk
        obtain ⟨hwv2, hwms2⟩ := hwfk
        have hfm2 : (dumpVal v2 lvl).length + (dumpObjTail ms2 lvl).length + 2 ≤ f := by
          simp only [dumpObjTail, List.length_cons, List.length_append,
            nlIndent_length] at hfuel
          omega
        have h5 : (dumpObjTail ((k2, v2) :: ms2) lvl ++ (nlIndent lvl2 ++ (cbraceC :: rest)))
            = ',' :: (nlIndent lvl ++ (dumpStr k2 ++ (':' :: ' ' :: (dumpVal v2 lvl ++
              (dumpObjTail ms2 lvl ++ (nlIndent lvl2 ++ (cbraceC :: rest))))))) := by
          simp only [dumpObjTail]
          simp [List.append_assoc]
        rw [h5, skipWs_cons_not _ _ (by decide)]
        have h6 : skipWs (nlIndent lvl ++ (dumpStr k2 ++ (':' :: ' ' :: (dumpVal v2 lvl ++
            (dumpObjTail ms2 lvl ++ (nlIndent lvl2 ++ (cbraceC :: rest)))))))
            = dumpStr k2 ++ (':' :: ' ' :: (dumpVal v2 lvl ++
              (dumpObjTail ms2 lvl ++ (nlIndent lvl2 ++ (cbraceC :: rest))))) := by
          rw [skipWs_nlIndent]
          exact skipWs_cons_not _ _ (by decide)
        have h7 := rt_members k2 v2 ms2 f lvl lvl2 rest hwv2 hwms2 hfm2
        simp [h6, h7]
termination_by fuel
end

/-- `json.loads` inverts `json.dump(indent=2)` on well-formed values. -/
theorem jsonLoads_dumps (j : Json) (h : jsonWf j = true) :
    jsonLoads (jsonDumps j).toList = some j := by
  have h1 := rt_val j ((dumpVal j 0).length + 1) 0 [] [] h (fun z => rfl) (by omega) rfl
  simp only [List.nil_append, List.append_nil] at h1
  rw [show (jsonDumps j).toList = dumpVal j 0 from rfl, jsonLoads, h1]
  rfl

/-! ## Parser output is well formed -/

mutual
/-- Whatever the value parser accepts is a well-formed value. -/
theorem parseVal_wf (fuel : Nat) (cs : List Char) (j : Json) (r : List Char)
    (h : parseVal fuel cs = some (j, r)) : jsonWf j = true := by
  cases fuel with
  | zero => simp only [parseVal] at h; cases h
  | succ f =>
      simp only [parseVal] at h
      split at h
      · simp at h
      · split at h
        · split at h
          · simp only [Option.some.injEq, Prod.mk.injEq] at h
            rw [← h.1]
            rfl
          · simp at h
        · split at h
          · split at h
            · simp at h
            · split at h
              · simp only [Option.some.injEq, Prod.mk.injEq] at h
                rw [← h.1]
                rfl
              · split at h
                · rename_i ms r3 hms
                  have hk := parseMembers_wf f _ ms r3 hms
                  simp only [Option.some.injEq, Prod.mk.injEq] at h
                  rw [← h.1]
                  simp [jsonWf, keysFresh_buildDict, jsonWfK_buildDict _ hk]
                · simp at h
          · split at h
            · split at h
              · simp at h
              · split at h
                · simp only [Option.some.injEq, Prod.mk.injEq] at h
                  rw [← h.1]
                  rfl
                · split at h
                  · rename_i vs r3 hvs
                    have hl := parseElems_wf f _ vs r3 hvs
                    simp only [Option.some.injEq, Prod.mk.injEq] at h
                    rw [← h.1]
                    simp [jsonWf, hl]
                  · simp at h
            · split at h
              · split at h
                · simp only [Option.some.injEq, Prod.mk.injEq] at h
                  rw [← h.1]
                  rfl
                · simp at h
              · split at h
                · split at h
                  · simp only [Option.some.injEq, Prod.mk.injEq] at h
                    rw [← h.1]
                    rfl
                  · simp at h
                · split at h
                  · split at h
                    · simp only [Option.some.injEq, Prod.mk.injEq] at h
                      rw [← h.1]
                      rfl
                    · simp at h
                  · split at h
                    · split at h
                      · rename_i lex r2 hlex
                        have hb := numLex_sound _ lex r2 hlex
                        simp only [Option.some.injEq, Prod.mk.injEq] at h
                        rw [← h.1]
                        simp only [jsonWf, numLexOk, Bool.or_eq_true]
                        exact Or.inr hb
                      · split at h
                        · split at h
                          · simp only [Option.some.injEq, Prod.mk.injEq] at h
                            rw [← h.1]
                            decide
                          · simp at h
                        · simp at h
                    · split at h
                      · split at h
                        · simp only [Option.some.injEq, Prod.mk.injEq] at h
                          rw [← h.1]
                          decide
                        · simp at h
                      · split at h
                        · split at h
                          · simp only [Option.some.injEq, Prod.mk.injEq] at h
                            rw [← h.1]
                            decide
                          · simp at h
                        · simp at h
termination_by fuel

/-- Whatever the element parser accepts is a list of well-formed values. -/
theorem parseElems_wf (fuel : Nat) (cs : List Char) (vs : List Json) (r : List Char)
    (h : parseElems fuel cs = some (vs, r)) : jsonWfL vs = true := by
  cases fuel with
  | zero => simp only [parseElems] at h; cases h
  | succ f =>
      simp only [parseElems] at h
      split at h
      · simp at h
      · rename_i v r0 hv
        have hwv := parseVal_wf f cs v r0 hv
        split at h
        · split at h
          · rename_i vs2 r3 hvs2
            have hw2 := parseElems_wf f _ vs2 r3 hvs2
            simp only [Option.some.injEq, Prod.mk.injEq] at h
            rw [← h.1]
            simp [jsonWfL, hwv, hw2]
          · simp at h
        · simp only [Option.some.injEq, Prod.mk.injEq] at h
          rw [← h.1]
          simp [jsonWfL, hwv]
        · simp at h
termination_by fuel

/-- Whatever the member parser accepts is a list of well-formed bindings. -/
theorem parseMembers_wf (fuel : Nat) (cs : List Char) (ms : List (String × Json))
    (r : List Char) (h : parseMembers fuel cs = some (ms, r)) : jsonWfK ms = true := by
  cases fuel with
  | zero => simp only [parseMembers] at h; cases h
  | succ f =>
      simp only [parseMembers] at h
      split at h
      · split at h
        · simp at h
        · rename_i key r1 hkey
          split at h
          · split at h
            · simp at h
            · rename_i v r3 hv
              have hwv := parseVal_wf f _ v r3 hv
              split at h
              · split at h
                · rename_i ms2 r5 hms2
                  have hw2 := parseMembers_wf f _ ms2 r5 hms2
                  simp only [Option.some.injEq, Prod.mk.injEq] at h
                  rw [← h.1]
                  simp [jsonWfK, hwv, hw2]
                · simp at h
              · split at h
                · simp only [Option.some.injEq, Prod.mk.injEq] at h
                  rw [← h.1]
                  simp [jsonWfK, hwv]
                · simp at h
              · simp at h
          · simp at h
      · simp at h
termination_by fuel
end

/-- Whatever `json.loads` accepts is a well-formed value. -/
theorem jsonLoads_wf (cs : List Char) (j : Json) (h : jsonLoads cs = some j) :
    jsonWf j = true := by
  rw [jsonLoads] at h
  split at h
  · rename_i j2 r hp
    split at h
    · simp only [Option.some.injEq] at h
      rw [← h]
      exact parseVal_wf _ _ _ _ hp
    · simp at h
  · simp at h

/-! ## Well-formedness of the values the store handles -/

/-- A value stored in a well-formed dict is well formed. -/
theorem dget_wf (kvs : List (String × Json)) (k : String) (v : Json)
    (hk : jsonWfK kvs = true) (h : dget kvs k = some v) : jsonWf v = true := by
  induction kvs with
  | nil => simp [dget] at h
  | cons kv rest ih =>
      obtain ⟨k1, v1⟩ := kv
      simp only [jsonWfK, Bool.and_eq_true] at hk
      rw [dget] at h
      by_cases he : k1 = k
      · rw [if_pos he] at h
        simp only [Option.some.injEq] at h
        rw [← h]
        exact hk.1
      · rw [if_neg he] at h
        exact ih hk.2 h

theorem getD_wf (kvs : List (String × Json)) (k : String) (d : Json)
    (hk : jsonWfK kvs = true) (hd : jsonWf d = true) :
    jsonWf ((dget kvs k).getD d) = true := by
  cases h : dget kvs k with
  | none => simpa using hd
  | some v => simpa using dget_wf kvs k v hk h

/-- The decoded payload, when extraction succeeds on well-formed input,
yields a well-formed `user_info` dict. -/
theorem extract_user_info_wf (pj : Json) (ui : UserInfo) (hwf : jsonWf pj = true)
    (h : extract_user_info pj = some ui) : jsonWf (userInfoDict ui) = true := by
  cases pj with
  | obj kvs =>
      simp only [jsonWf, Bool.and_eq_true] at hwf
      obtain ⟨_, hk⟩ := hwf
      rw [extract_user_info] at h
      simp only [Option.some.injEq] at h
      have huid : jsonWf (match dget kvs ("upn") with
          | some v => v
          | none =>
              match dget kvs ("unique_name") with
              | some v => v
              | none =>
                  match dget kvs ("email") with
                  | some v => v
                  | none => (dget kvs ("sub")).getD (Json.str ("unknown"))) = true := by
        cases h1 : dget kvs ("upn") with
        | some v => simpa using dget_wf kvs _ v hk h1
        | none =>
            cases h2 : dget kvs ("unique_name") with
            | some v => simpa using dget_wf kvs _ v hk h2
            | none =>
                cases h3 : dget kvs ("email") with
                | some v => simpa using dget_wf kvs _ v hk h3
                | none => simpa using getD_wf kvs ("sub") (Json.str ("unknown")) hk rfl
      rw [← h]
      simp only [userInfoDict, jsonWf, jsonWfK, Bool.and_eq_true]
      refine ⟨rfl, huid, ?_, ?_, ?_, ?_, ?_, trivial⟩
      · exact getD_wf kvs ("name") _ hk huid
      · exact getD_wf kvs ("tid") Json.null hk rfl
      · exact getD_wf kvs ("tenant_name") Json.null hk rfl
      · exact getD_wf kvs ("oid") Json.null hk rfl
      · exact getD_wf kvs ("roles") (Json.arr []) hk rfl
  | null => cases h
  | bool b => cases h
  | num lx => cases h
  | str s => cases h
  | arr xs => cases h

/-- A decoded payload is a well-formed value. -/
theorem payload_json_of_wf (tok : String) (pj : Json)
    (h : payload_json_of tok = some pj) : jsonWf pj = true := by
  rw [payload_json_of] at h
  split at h
  · split at h
    · rename_i bytes hb
      rw [bytesJsonLoads] at h
      split at h
      · exact jsonLoads_wf _ _ h
      · cases h
    · cases h
  · cases h

/-- A `user_info` dict produced by token parsing is well formed. -/
theorem parse_jwt_token_wf (tok : String) (ui : UserInfo)
    (h : parse_jwt_token tok = some ui) : jsonWf (userInfoDict ui) = true := by
  rw [parse_jwt_token] at h
  split at h
  · rename_i pj hpj
    exact extract_user_info_wf pj ui (payload_json_of_wf tok pj hpj) h
  · cases h

theorem authDict_wf (st : AuthState) (h1 : jsonWf st.is_authenticated = true)
    (h2 : jsonWf st.user_info = true) (h3 : jsonWf st.tenant_id = true) :
    jsonWf (authDict st) = true := by
  simp only [authDict, jsonWf, jsonWfK, Bool.and_eq_true]
  exact ⟨rfl, h1, h2, h3, trivial⟩

/-- Merging the serialized `auth` sub-object sets exactly the three fields. -/
theorem dictUpdate_authDict (st0 st : AuthState) :
    dictUpdate st0 (authDict st) = Except.ok { st0 with
      is_authenticated := st.is_authenticated, user_info := st.user_info,
      tenant_id := st.tenant_id } := by
  simp [dictUpdate, authDict, setStateKey]

theorem dset_dset_self_eq (kvs : List (String × Json)) (k : String) (v : Json) :
    dset (dset kvs k v) k v = dset kvs k v := by
  induction kvs with
  | nil => simp [dset]
  | cons kv rest ih =>
      obtain ⟨k1, v1⟩ := kv
      by_cases he : k1 = k
      · subst he
        simp [dset]
      · simp [dset, he, ih]

/-- A merge whose keys avoid `user_info` leaves that field unchanged. -/
theorem setStateKey_user_info (s : AuthState) (k : String) (v : Json)
    (h : ¬ (k = "user_info")) : (setStateKey s k v).user_info = s.user_info := by
  rw [setStateKey]
  split_ifs <;> simp_all [setStateKey]

theorem foldl_setStateKey_user_info (kvs2 : List (String × Json)) (s : AuthState)
    (h : ∀ kv ∈ kvs2, ¬ (kv.1 = "user_info")) :
    (kvs2.foldl (fun s kv => setStateKey s kv.1 kv.2) s).user_info = s.user_info := by
  induction kvs2 generalizing s with
  | nil => rfl
  | cons kv rest ih =>
      rw [List.foldl_cons]
      rw [ih _ (fun x hx => h x (List.mem_cons_of_mem kv hx))]
      exact setStateKey_user_info s kv.1 kv.2 (h kv (List.mem_cons_self kv rest))

/-! ## Saving and then loading -/

/-- Loading a dumped config dict whose `auth` key holds the serialized
fields of `st` merges exactly those three fields. -/
theorem load_of_dump (st0 : AuthState) (kvs : List (String × Json)) (st : AuthState)
    (hwf : jsonWf (Json.obj kvs) = true)
    (hget : dget kvs ("auth") = some (authDict st)) :
    load_auth_state st0 (some (jsonDumps (Json.obj kvs))) false = Except.ok { st0 with
      is_authenticated := st.is_authenticated, user_info := st.user_info,
      tenant_id := st.tenant_id } := by
  rw [load_auth_state]
  simp only [Bool.false_eq_true, if_false]
  rw [jsonLoads_dumps _ hwf]
  simp only [hget, Option.getD_some]
  exact dictUpdate_authDict st0 st

/-- A successful save with no injected failures writes a parseable dict
whose `auth` key is the three serialized fields; loading it in any process
reproduces them. -/
theorem save_then_load (st st0 : AuthState) (file : Option String) (d : Option String)
    (hA : jsonWf st.is_authenticated = true) (hU : jsonWf st.user_info = true)
    (hT : jsonWf st.tenant_id = true)
    (hs : save_auth_state st file false false false = Except.ok d) :
    ∃ content, d = some content ∧
      load_auth_state st0 (some content) false = Except.ok { st0 with
        is_authenticated := st.is_authenticated, user_info := st.user_info,
        tenant_id := st.tenant_id } := by
  have had : jsonWf (authDict st) = true := authDict_wf st hA hU hT
  cases file with
  | none =>
      rw [save_auth_state.eq_def] at hs
      simp only [Bool.false_eq_true, if_false, Except.ok.injEq] at hs
      refine ⟨jsonDumps (Json.obj [(("auth"), authDict st)]), hs.symm, ?_⟩
      have hwf1 : jsonWf (Json.obj [(("auth"), authDict st)]) = true := by
        have h2 : jsonWfK [(("auth"), authDict st)] = true := by
          rw [jsonWfK, had]
          rfl
        rw [jsonWf, h2]
        rfl
      exact load_of_dump st0 _ st hwf1 rfl
  | some content0 =>
      rw [save_auth_state.eq_def] at hs
      simp only [Bool.false_eq_true, if_false] at hs
      cases hj : jsonLoads content0.toList with
      | none => rw [hj] at hs; cases hs
      | some j =>
          cases j with
          | obj kvs =>
              rw [hj] at hs
              simp only [Except.ok.injEq] at hs
              have hwfo := jsonLoads_wf _ _ hj
              simp only [jsonWf, Bool.and_eq_true] at hwfo
              refine ⟨jsonDumps (Json.obj (dset kvs ("auth") (authDict st))), hs.symm, ?_⟩
              refine load_of_dump st0 _ st ?_ (dget_dset_self _ _ _)
              simp only [jsonWf, Bool.and_eq_true]
              exact ⟨keysFresh_dset _ _ _ hwfo.1, jsonWfK_dset _ _ _ hwfo.2 had⟩
          | null => rw [hj] at hs; cases hs
          | bool b => rw [hj] at hs; cases hs
          | num lx => rw [hj] at hs; cases hs
          | str s => rw [hj] at hs; cases hs
          | arr xs => rw [hj] at hs; cases hs

/-! ## Reachable states of the store -/

/-- States the store's own operations can produce: process start, a
successful SDK authentication, a demo login, a logout, and a reload of a
file that the program itself saved (no injected failures). -/
inductive Reachable : AuthState → Prop where
  | init : Reachable initialAuthState
  | auth (st : AuthState) (tok : String) (tenant : Option String) (h : Reachable st) :
      Reachable (authenticate_mutation st tok tenant)
  | demo (st : AuthState) (tenant : Option String) (h : Reachable st) :
      Reachable { st with
        is_authenticated := Json.bool true
        user_info := demoUserInfo
        tenant_id := Json.str (pyOrTenant tenant) }
  | clear (st : AuthState) (h : Reachable st) :
      Reachable { st with
        is_authenticated := Json.bool false
        user_info := Json.null
        tenant_id := Json.null
        credential := CredVal.json Json.null }
  | load (st st_src : AuthState) (file : Option String) (content : String)
      (st2 : AuthState) (hsrc : Reachable st_src)
      (hsave : save_auth_state st_src file false false false = Except.ok (some content))
      (hload : load_auth_state st (some content) false = Except.ok st2) :
      Reachable st2

/-- The claim's wider reading: a load may merge the `auth` sub-object of a
backing file with arbitrary content. -/
inductive ReachableClaim : AuthState → Prop where
  | init : ReachableClaim initialAuthState
  | auth (st : AuthState) (tok : String) (tenant : Option String) (h : ReachableClaim st) :
      ReachableClaim (authenticate_mutation st tok tenant)
  | demo (st : AuthState) (tenant : Option String) (h : ReachableClaim st) :
      ReachableClaim { st with
        is_authenticated := Json.bool true
        user_info := demoUserInfo
        tenant_id := Json.str (pyOrTenant tenant) }
  | clear (st : AuthState) (h : ReachableClaim st) :
      ReachableClaim { st with
        is_authenticated := Json.bool false
        user_info := Json.null
        tenant_id := Json.null
        credential := CredVal.json Json.null }
  | load (st : AuthState) (file : Option String) (readFails : Bool) (st2 : AuthState)
      (h : ReachableClaim st)
      (hload : load_auth_state st file readFails = Except.ok st2) :
      ReachableClaim st2

theorem tenantArgJson_wf (t : Option String) : jsonWf (tenantArgJson t) = true := by
  cases t <;> rfl

/-- Every reachable state has well-formed serializable fields and satisfies
the presence invariant. -/
theorem Reachable_invariant (st : AuthState) (h : Reachable st) :
    jsonWf st.is_authenticated = true ∧ jsonWf st.user_info = true ∧
    jsonWf st.tenant_id = true ∧
    (st.is_authenticated = Json.bool true ↔ st.user_info ≠ Json.null) := by
  induction h with
  | init => exact ⟨rfl, rfl, rfl, by simp [initialAuthState]⟩
  | auth st tok tenant h ih =>
      cases hp : parse_jwt_token tok with
      | some ui =>
          have hwui := parse_jwt_token_wf tok ui hp
          have hwt : jsonWf ui.tenant_id = true := by
            have h5 := hwui
            simp only [userInfoDict, jsonWf, jsonWfK, Bool.and_eq_true] at h5
            exact h5.2.2.2.1
          by_cases hc : (tenantFalsy tenant && jsonTruthy ui.tenant_id) = true
          · simp only [authenticate_mutation, hp, if_pos hc]
            exact ⟨rfl, hwui, hwt, by simp [userInfoDict]⟩
          · simp only [authenticate_mutation, hp, if_neg hc]
            exact ⟨rfl, hwui, tenantArgJson_wf tenant, by simp [userInfoDict]⟩
      | none =>
          simp only [authenticate_mutation, hp]
          exact ⟨rfl, rfl, tenantArgJson_wf tenant, by simp [fallbackUserInfo]⟩
  | demo st tenant h ih =>
      exact ⟨rfl, rfl, rfl, by simp [demoUserInfo]⟩
  | clear st h ih =>
      exact ⟨rfl, rfl, rfl, by simp⟩
  | load st st_src file content st2 hsrc hsave hload ih =>
      obtain ⟨hA, hU, hT, hiff⟩ := ih
      obtain ⟨c2, hc2, hl2⟩ := save_then_load st_src st file (some content) hA hU hT hsave
      simp only [Option.some.injEq] at hc2
      rw [← hc2] at hl2
      rw [hl2] at hload
      simp only [Except.ok.injEq] at hload
      rw [← hload]
      exact ⟨hA, hU, hT, hiff⟩

/-! ## The spec's reading of payload padding (claim C3) -/

/-- The padding the spec describes: append `=` until the length is a
multiple of four — nothing when it already is one. -/
def spec_addPadding (p : List Char) : List Char :=
  p ++ List.replicate ((4 - p.length % 4) % 4) '='

/-- `payload_json_of` as the spec words it, with minimal padding. -/
def spec_payload_json_of (token_string : String) : Option Json :=
  match splitDot token_string.toList with
  | [_, payload, _] =>
      match urlsafe_b64decode (spec_addPadding payload) with
      | some bytes => bytesJsonLoads bytes
      | none => none
  | _ => none

/-- `parse_jwt_token` as the spec words it. -/
def spec_parse_jwt_token (token_string : String) : Option UserInfo :=
  match spec_payload_json_of token_string with
  | some pj => extract_user_info pj
  | none => none

/-- A state file with an unrelated top-level key, for the C6 scenario. -/
def exContentC6 : String :=
  "\x7b\"other_setting\": \"x\", \"auth\": \x7b\"is_authenticated\": true\x7d\x7d"

/-- The dict `exContentC6` parses to. -/
def exKvsC6 : List (String × Json) :=
  [(("other_setting"), Json.str ("x")),
   (("auth"), Json.obj [(("is_authenticated"), Json.bool true)])]

/-! ## The claims -/

/-- C1: whenever the payload of a token decodes to a JSON object, extraction
succeeds, the identity claim is resolved by the first present key of
`upn`, `unique_name`, `email`, `sub` (else the literal string `unknown`),
and `display_name` is the `name` claim if present, else the resolved
identity. -/
theorem C1_claim (tok : String) (kvs : List (String × Json))
    (h : payload_json_of tok = some (Json.obj kvs)) :
    ∃ ui, parse_jwt_token tok = some ui ∧
      (∀ v, dget kvs ("upn") = some v → ui.user_id = v) ∧
      (dget kvs ("upn") = none → ∀ v, dget kvs ("unique_name") = some v → ui.user_id = v) ∧
      (dget kvs ("upn") = none → dget kvs ("unique_name") = none →
        ∀ v, dget kvs ("email") = some v → ui.user_id = v) ∧
      (dget kvs ("upn") = none → dget kvs ("unique_name") = none →
        dget kvs ("email") = none → ∀ v, dget kvs ("sub") = some v → ui.user_id = v) ∧
      (dget kvs ("upn") = none → dget kvs ("unique_name") = none →
        dget kvs ("email") = none → dget kvs ("sub") = none →
        ui.user_id = Json.str ("unknown")) ∧
      (∀ v, dget kvs ("name") = some v → ui.display_name = v) ∧
      (dget kvs ("name") = none → ui.display_name = ui.user_id) := by
  have hx : parse_jwt_token tok = extract_user_info (Json.obj kvs) := by
    rw [parse_jwt_token.eq_def, h]
  simp only [extract_user_info] at hx
  refine ⟨_, hx, ?_, ?_, ?_, ?_, ?_, ?_, ?_⟩
  · intro v hv
    simp [hv]
  · intro h1 v hv
    simp [h1, hv]
  · intro h1 h2 v hv
    simp [h1, h2, hv]
  · intro h1 h2 h3 v hv
    simp [h1, h2, h3, hv]
  · intro h1 h2 h3 h4
    simp [h1, h2, h3, h4]
  · intro v hv
    simp [hv]
  · intro h1
    simp [h1]

/-- C1 witness: the token with payload encoding the object with a single
`sub` claim. -/
theorem C1_claim_witness :
    ∃ ui, parse_jwt_token ("h.eyJzdWIiOiJ4In0.s") = some ui ∧
      (∀ v, dget [(("sub"), Json.str ("x"))] ("upn") = some v → ui.user_id = v) ∧
      (dget [(("sub"), Json.str ("x"))] ("upn") = none →
        ∀ v, dget [(("sub"), Json.str ("x"))] ("unique_name") = some v → ui.user_id = v) ∧
      (dget [(("sub"), Json.str ("x"))] ("upn") = none →
        dget [(("sub"), Json.str ("x"))] ("unique_name") = none →
        ∀ v, dget [(("sub"), Json.str ("x"))] ("email") = some v → ui.user_id = v) ∧
      (dget [(("sub"), Json.str ("x"))] ("upn") = none →
        dget [(("sub"), Json.str ("x"))] ("unique_name") = none →
        dget [(("sub"), Json.str ("x"))] ("email") = none →
        ∀ v, dget [(("sub"), Json.str ("x"))] ("sub") = some v → ui.user_id = v) ∧
      (dget [(("sub"), Json.str ("x"))] ("upn") = none →
        dget [(("sub"), Json.str ("x"))] ("unique_name") = none →
        dget [(("sub"), Json.str ("x"))] ("email") = none →
        dget [(("sub"), Json.str ("x"))] ("sub") = none →
        ui.user_id = Json.str ("unknown")) ∧
      (∀ v, dget [(("sub"), Json.str ("x"))] ("name") = some v → ui.display_name = v) ∧
      (dget [(("sub"), Json.str ("x"))] ("name") = none → ui.display_name = ui.user_id) :=
  C1_claim ("h.eyJzdWIiOiJ4In0.s") [(("sub"), Json.str ("x"))] (by decide)

/-- C2: a token that does not split into exactly three dot-separated
segments yields no claims, and extraction is a total function — no
exception path exists in the model. -/
theorem C2_claim (tok : String) (h : (splitDot tok.toList).length ≠ 3) :
    parse_jwt_token tok = none := by
  rw [parse_jwt_token.eq_def, payload_json_of.eq_def]
  cases hs : splitDot tok.toList with
  | nil => simp
  | cons a t =>
      cases t with
      | nil => simp
      | cons b t2 =>
          cases t2 with
          | nil => simp
          | cons c t3 =>
              cases t3 with
              | nil => exact absurd (by rw [hs]; rfl) h
              | cons d t4 => simp

/-- C2 witness: a token with no dot at all. -/
theorem C2_claim_witness : parse_jwt_token ("nodots") = none :=
  C2_claim ("nodots") (by decide)

/-- C3 counterexample: the claim describes minimal padding (up to three
`=`); the code appends `"=" * (4 - len % 4)`, which is four `=` when the
length is already a multiple of four.  For the four-character payload
`e30!` (the invalid `!` is skipped by the non-strict base64 decoder) the
code decodes `e30!====` to the object bytes and extracts placeholder
claims, while the spec's minimal padding leaves `e30!`, whose three data
characters before end of input are a decode error, hence no claims. -/
theorem C3_counterexample :
    parse_jwt_token ("h.e30!.s")
        = some { user_id := Json.str ("unknown"), display_name := Json.str ("unknown"),
                 tenant_id := Json.null, tenant_name := Json.null,
                 object_id := Json.null, roles := Json.arr [] } ∧
    spec_parse_jwt_token ("h.e30!.s") = none := by
  exact ⟨rfl, rfl⟩

/-- C3 (amended): for a three-segment token the payload is decoded by
appending `"=" * (4 - len % 4)` equal signs (one to four, a full `====`
when the length is already a multiple of four), base64url-decoding and
JSON-parsing; every decode or parse failure yields no claims rather than
an exception; and the alice scenario extracts the three expected claims. -/
theorem C3_claim (tok : String) (hdr payload sig : List Char)
    (hsplit : splitDot tok.toList = [hdr, payload, sig]) :
    (parse_jwt_token tok =
      match urlsafe_b64decode (payload ++ List.replicate (4 - payload.length % 4) '=') with
      | some bytes =>
          match bytesJsonLoads bytes with
          | some pj => extract_user_info pj
          | none => none
      | none => none) ∧
    parse_jwt_token
        ("h.eyJ1cG4iOiJhbGljZUBjb250b3NvLmNvbSIsIm5hbWUiOiJBbGljZSIsInRpZCI6InRlbmFudC0xIn0.s")
      = some { user_id := Json.str ("alice@contoso.com"),
               display_name := Json.str ("Alice"), tenant_id := Json.str ("tenant-1"),
               tenant_name := Json.null, object_id := Json.null, roles := Json.arr [] } := by
  constructor
  · rw [parse_jwt_token.eq_def, payload_json_of.eq_def, hsplit]
    simp only [addPadding]
    cases hu : urlsafe_b64decode (payload ++ List.replicate (4 - payload.length % 4) '=') with
    | none => simp [hu]
    | some bytes =>
        cases hb : bytesJsonLoads bytes with
        | none => simp [hu, hb]
        | some pj => simp [hu, hb]
  · rfl

/-- C3 witness: the amended decode pipeline applied to the three-segment
token with payload `e30`. -/
theorem C3_claim_witness :
    ((parse_jwt_token ("h.e30.s") =
      match urlsafe_b64decode (['e', '3', '0'] ++
          List.replicate (4 - (['e', '3', '0'] : List Char).length % 4) '=') with
      | some bytes =>
          match bytesJsonLoads bytes with
          | some pj => extract_user_info pj
          | none => none
      | none => none) ∧
    parse_jwt_token
        ("h.eyJ1cG4iOiJhbGljZUBjb250b3NvLmNvbSIsIm5hbWUiOiJBbGljZSIsInRpZCI6InRlbmFudC0xIn0.s")
      = some { user_id := Json.str ("alice@contoso.com"),
               display_name := Json.str ("Alice"), tenant_id := Json.str ("tenant-1"),
               tenant_name := Json.null, object_id := Json.null, roles := Json.arr [] }) :=
  C3_claim ("h.e30.s") ['h'] ['e', '3', '0'] ['s'] (by decide)

/-- C4 counterexample: under the claim's own reading — load may merge the
`auth` object of a file with any content — the invariant fails: a file
whose `auth` object sets only `is_authenticated` to `true` yields a state
that is authenticated with a null `user_info`. -/
theorem C4_counterexample :
    ¬ (∀ st, ReachableClaim st →
        (st.is_authenticated = Json.bool true ↔ st.user_info ≠ Json.null)) := by
  intro hall
  have hload : load_auth_state initialAuthState
      (some ("\x7b\"auth\": \x7b\"is_authenticated\": true\x7d\x7d")) false
      = Except.ok { initialAuthState with is_authenticated := Json.bool true } := by
    rfl
  have hr := ReachableClaim.load initialAuthState _ false _ ReachableClaim.init hload
  exact (hall _ hr).mp rfl rfl

/-- C4 (amended): in every state reachable through the store's own
operations — initial state, successful authentication, demo login, clear,
and reload of a file the program itself saved — `user_info` is non-null
exactly when `is_authenticated` is `true`. -/
theorem C4_claim (st : AuthState) (h : Reachable st) :
    st.is_authenticated = Json.bool true ↔ st.user_info ≠ Json.null :=
  (Reachable_invariant st h).2.2.2

/-- C4 witness: the invariant at the initial state. -/
theorem C4_claim_witness :
    initialAuthState.is_authenticated = Json.bool true ↔
      initialAuthState.user_info ≠ Json.null :=
  C4_claim initialAuthState Reachable.init

/-- C5 counterexample: a backing file holding malformed JSON makes `save`
raise — `json.loads` runs inside a `try` that catches only `IOError`, and
`json.JSONDecodeError` is a `ValueError`, so it propagates to the caller. -/
theorem C5_counterexample :
    ¬ (∀ (st : AuthState) (content : String) (readFails writeFails : Bool),
        save_auth_state st (some content) false readFails writeFails
          ≠ Except.error ()) := by
  intro hall
  exact hall initialAuthState ("not json") false false rfl

/-- C5 (amended): `save` swallows injected read and write `IOError`s, and
returns successfully whenever any pre-existing readable content parses to
a JSON object; only a pre-existing file that is unreadable-as-a-dict (or a
`mkdir` failure, which happens before the `try`) makes it raise. -/
theorem C5_claim (st : AuthState) (file : Option String) (readFails writeFails : Bool)
    (hparse : ∀ content, file = some content → readFails = false →
      ∃ kvs, jsonLoads content.toList = some (Json.obj kvs)) :
    ∃ d, save_auth_state st file false readFails writeFails = Except.ok d := by
  cases file with
  | none =>
      rw [save_auth_state.eq_def]
      simp only [Bool.false_eq_true, if_false]
      cases writeFails with
      | true => exact ⟨none, rfl⟩
      | false => exact ⟨_, rfl⟩
  | some content =>
      rw [save_auth_state.eq_def]
      simp only [Bool.false_eq_true, if_false]
      cases readFails with
      | true => exact ⟨some content, rfl⟩
      | false =>
          obtain ⟨kvs, hk⟩ := hparse content rfl rfl
          rw [hk]
          cases writeFails with
          | true => exact ⟨some content, rfl⟩
          | false => exact ⟨_, rfl⟩

/-- C5 witness: saving with no pre-existing file. -/
theorem C5_claim_witness :
    ∃ d, save_auth_state initialAuthState none false false false = Except.ok d :=
  C5_claim initialAuthState none false false (fun c hc _ => nomatch hc)

/-- C6: on a pre-existing file that parses to a dict, `save` writes that
dict with only the `auth` key replaced — every other top-level key keeps
its value — and the new `auth` value is exactly the three serializable
fields, never the credential; and in the concrete scenario, after a clear
on a file holding `other_setting`, that key is still present unchanged. -/
theorem C6_claim (st : AuthState) (content : String) (kvs : List (String × Json))
    (hparse : jsonLoads content.toList = some (Json.obj kvs)) :
    (save_auth_state st (some content) false false false
        = Except.ok (some (jsonDumps (Json.obj (dset kvs ("auth") (authDict st))))) ∧
      (∀ k, ¬ (k = "auth") → dget (dset kvs ("auth") (authDict st)) k = dget kvs k) ∧
      dget (dset kvs ("auth") (authDict st)) ("auth") = some (authDict st) ∧
      authDict st = Json.obj [(("is_authenticated"), st.is_authenticated),
        (("user_info"), st.user_info), (("tenant_id"), st.tenant_id)]) ∧
    (∃ st2 c2 kvs2,
      clear_auth_state initialAuthState (some exContentC6) false false false
        = Except.ok (st2, some c2) ∧
      jsonLoads c2.toList = some (Json.obj kvs2) ∧
      dget kvs2 ("other_setting") = some (Json.str ("x"))) := by
  constructor
  · refine ⟨?_, ?_, dget_dset_self _ _ _, rfl⟩
    · rw [save_auth_state.eq_def]
      simp only [Bool.false_eq_true, if_false]
      rw [hparse]
    · intro k hk
      exact dget_dset_ne kvs ("auth") k (authDict st) hk
  · exact ⟨_, _, _, rfl, rfl, rfl⟩

/-- C6 witness: the frame at the scenario file itself. -/
theorem C6_claim_witness :
    ((save_auth_state initialAuthState (some exContentC6) false false false
        = Except.ok (some (jsonDumps (Json.obj
            (dset exKvsC6 ("auth") (authDict initialAuthState))))) ∧
      (∀ k, ¬ (k = "auth") →
        dget (dset exKvsC6 ("auth") (authDict initialAuthState)) k = dget exKvsC6 k) ∧
      dget (dset exKvsC6 ("auth") (authDict initialAuthState)) ("auth")
        = some (authDict initialAuthState) ∧
      authDict initialAuthState = Json.obj
        [(("is_authenticated"), initialAuthState.is_authenticated),
         (("user_info"), initialAuthState.user_info),
         (("tenant_id"), initialAuthState.tenant_id)]) ∧
    (∃ st2 c2 kvs2,
      clear_auth_state initialAuthState (some exContentC6) false false false
        = Except.ok (st2, some c2) ∧
      jsonLoads c2.toList = some (Json.obj kvs2) ∧
      dget kvs2 ("other_setting") = some (Json.str ("x")))) :=
  C6_claim initialAuthState exContentC6 exKvsC6 (by decide)

/-- C7 counterexample: with a pre-existing file whose JSON is not a dict,
`save` raises (`config_data["auth"] = ...` is a `TypeError`, not caught by
the `except IOError` clause), so no round trip exists for that content. -/
theorem C7_counterexample :
    ¬ (∀ (st : AuthState) (content : String),
        ∃ d st2, save_auth_state st (some content) false false false = Except.ok d ∧
          load_auth_state initialAuthState d false = Except.ok st2 ∧
          st2.is_authenticated = st.is_authenticated ∧ st2.user_info = st.user_info ∧
          st2.tenant_id = st.tenant_id) := by
  intro hall
  obtain ⟨d, st2, hs, _⟩ := hall initialAuthState ("\"oops\"")
  have he : save_auth_state initialAuthState (some ("\"oops\"")) false false false
      = Except.error () := rfl
  rw [he] at hs
  cases hs

/-- C7 (amended): when the three serializable fields are actual Python
values and the pre-existing file is absent or parses to a dict, saving and
then loading in a fresh process reproduces `is_authenticated`, `user_info`
and `tenant_id` exactly. -/
theorem C7_claim (st : AuthState) (file : Option String)
    (hA : jsonWf st.is_authenticated = true) (hU : jsonWf st.user_info = true)
    (hT : jsonWf st.tenant_id = true)
    (hfile : file = none ∨ ∃ content kvs, file = some content ∧
      jsonLoads content.toList = some (Json.obj kvs)) :
    ∃ content st2,
      save_auth_state st file false false false = Except.ok (some content) ∧
      load_auth_state initialAuthState (some content) false = Except.ok st2 ∧
      st2.is_authenticated = st.is_authenticated ∧ st2.user_info = st.user_info ∧
      st2.tenant_id = st.tenant_id := by
  have hsave : ∃ d, save_auth_state st file false false false = Except.ok d := by
    rcases hfile with hnone | ⟨content, kvs, hfc, hk⟩
    · subst hnone
      rw [save_auth_state.eq_def]
      simp only [Bool.false_eq_true, if_false]
      exact ⟨_, rfl⟩
    · subst hfc
      rw [save_auth_state.eq_def]
      simp only [Bool.false_eq_true, if_false]
      rw [hk]
      exact ⟨_, rfl⟩
  obtain ⟨d, hd⟩ := hsave
  obtain ⟨content, hdc, hl⟩ := save_then_load st initialAuthState file d hA hU hT hd
  subst hdc
  exact ⟨content, _, hd, hl, rfl, rfl, rfl⟩

/-- C7 witness: round trip from the initial state with no pre-existing
file. -/
theorem C7_claim_witness :
    ∃ content st2,
      save_auth_state initialAuthState none false false false
        = Except.ok (some content) ∧
      load_auth_state initialAuthState (some content) false = Except.ok st2 ∧
      st2.is_authenticated = initialAuthState.is_authenticated ∧
      st2.user_info = initialAuthState.user_info ∧
      st2.tenant_id = initialAuthState.tenant_id :=
  C7_claim initialAuthState none rfl rfl rfl (Or.inl rfl)

/-- C8 counterexample: a backing file whose JSON parses to a non-dict
(here `[]`) makes `load` raise — `data.get("auth", ...)` is an
`AttributeError` on a list, and the `except` clause catches only
`json.JSONDecodeError` and `IOError`. -/
theorem C8_counterexample :
    ¬ (∀ (st : AuthState) (file : Option String) (readFails : Bool),
        load_auth_state st file readFails ≠ Except.error ()) := by
  intro hall
  exact hall initialAuthState (some ("[]")) false rfl

/-- C8 (amended): `load` leaves the state untouched when the file is
missing, unreadable, or unparseable; when the content parses to a dict
whose `auth` value is a dict, it merges exactly those keys over the
current state, and any merge whose keys avoid a field leaves that field
at its prior value; only a file parsing to a non-dict (or a dict whose
`auth` value misbehaves under `dict.update`) makes it raise. -/
theorem C8_claim (st : AuthState) :
    (load_auth_state st none false = Except.ok st) ∧
    (∀ (content : String), load_auth_state st (some content) true = Except.ok st) ∧
    (∀ (content : String), jsonLoads content.toList = none →
      load_auth_state st (some content) false = Except.ok st) ∧
    (∀ (content : String) (kvs akvs : List (String × Json)),
      jsonLoads content.toList = some (Json.obj kvs) →
      (dget kvs ("auth")).getD (Json.obj []) = Json.obj akvs →
      load_auth_state st (some content) false
        = Except.ok (akvs.foldl (fun s kv => setStateKey s kv.1 kv.2) st)) ∧
    (∀ (kvs2 : List (String × Json)) (s : AuthState),
      (∀ kv ∈ kvs2, ¬ (kv.1 = "user_info")) →
      (kvs2.foldl (fun s kv => setStateKey s kv.1 kv.2) s).user_info = s.user_info) := by
  refine ⟨rfl, fun content => rfl, ?_, ?_, foldl_setStateKey_user_info⟩
  · intro content hc
    rw [load_auth_state.eq_def]
    simp only [Bool.false_eq_true, if_false]
    rw [hc]
  · intro content kvs akvs hk ha
    rw [load_auth_state.eq_def]
    simp only [Bool.false_eq_true, if_false]
    rw [hk]
    simp only [ha, dictUpdate]

/-- C8 witness: loading unparseable content leaves the initial state
untouched. -/
theorem C8_claim_witness :
    load_auth_state initialAuthState (some ("oops?")) false
      = Except.ok initialAuthState :=
  (C8_claim initialAuthState).2.2.1 ("oops?") (by decide)

/-- The state reset `clear_auth_state` performs (keys other than the four
fixed ones are left in place). -/
def clearedState (st : AuthState) : AuthState :=
  { st with
    is_authenticated := Json.bool false
    user_info := Json.null
    tenant_id := Json.null
    credential := CredVal.json Json.null }

theorem clear_auth_state_def (st : AuthState) (file : Option String) (m r w : Bool) :
    clear_auth_state st file m r w =
      match save_auth_state (clearedState st) file m r w with
      | Except.ok d => Except.ok (clearedState st, d)
      | Except.error e => Except.error e := rfl

theorem clearedState_idem (st : AuthState) :
    clearedState (clearedState st) = clearedState st := rfl

/-- Saving over a file that this very save just wrote rewrites the same
content: the `auth` entry is replaced by itself. -/
theorem save_auth_state_stable (st : AuthState) (file : Option String) (d : Option String)
    (hwf : jsonWf (authDict st) = true)
    (hs : save_auth_state st file false false false = Except.ok d) :
    save_auth_state st d false false false = Except.ok d := by
  cases file with
  | none =>
      rw [save_auth_state.eq_def] at hs
      simp only [Bool.false_eq_true, if_false, Except.ok.injEq] at hs
      subst hs
      rw [save_auth_state.eq_def]
      simp only [Bool.false_eq_true, if_false]
      have hwf1 : jsonWf (Json.obj [(("auth"), authDict st)]) = true := by
        have h2 : jsonWfK [(("auth"), authDict st)] = true := by
          rw [jsonWfK, hwf]
          rfl
        rw [jsonWf, h2]
        rfl
      rw [jsonLoads_dumps _ hwf1]
      simp [dset]
  | some c0 =>
      rw [save_auth_state.eq_def] at hs
      simp only [Bool.false_eq_true, if_false] at hs
      cases hj : jsonLoads c0.toList with
      | none => rw [hj] at hs; cases hs
      | some j =>
          cases j with
          | obj kvs =>
              rw [hj] at hs
              simp only [Except.ok.injEq] at hs
              subst hs
              rw [save_auth_state.eq_def]
              simp only [Bool.false_eq_true, if_false]
              have hwfo := jsonLoads_wf _ _ hj
              simp only [jsonWf, Bool.and_eq_true] at hwfo
              have hwf1 : jsonWf (Json.obj (dset kvs ("auth") (authDict st))) = true := by
                simp only [jsonWf, Bool.and_eq_true]
                exact ⟨keysFresh_dset _ _ _ hwfo.1, jsonWfK_dset _ _ _ hwfo.2 hwf⟩
              rw [jsonLoads_dumps _ hwf1]
              simp only [dset_dset_self_eq]
          | null => rw [hj] at hs; cases hs
          | bool b => rw [hj] at hs; cases hs
          | num lx => rw [hj] at hs; cases hs
          | str s => rw [hj] at hs; cases hs
          | arr xs => rw [hj] at hs; cases hs

/-- C9: clearing is idempotent — if a clear succeeded, clearing again from
the state and file it produced returns exactly the same state and the same
persisted content (all fields false or empty either way). -/
theorem C9_claim (st : AuthState) (file : Option String) (st1 : AuthState)
    (d1 : Option String)
    (h : clear_auth_state st file false false false = Except.ok (st1, d1)) :
    clear_auth_state st1 d1 false false false = Except.ok (st1, d1) := by
  rw [clear_auth_state_def] at h
  cases hs : save_auth_state (clearedState st) file false false false with
  | error e => rw [hs] at h; cases h
  | ok d =>
      rw [hs] at h
      simp only [Except.ok.injEq, Prod.mk.injEq] at h
      obtain ⟨h1, h2⟩ := h
      subst h2
      subst h1
      rw [clear_auth_state_def, clearedState_idem,
        save_auth_state_stable (clearedState st) file d rfl hs]

/-- C9 witness: clearing the initial state twice over its own saved file. -/
theorem C9_claim_witness :
    clear_auth_state initialAuthState
        (some (jsonDumps (Json.obj [(("auth"), authDict initialAuthState)])))
        false false false
      = Except.ok (initialAuthState,
          some (jsonDumps (Json.obj [(("auth"), authDict initialAuthState)]))) :=
  C9_claim initialAuthState none initialAuthState
    (some (jsonDumps (Json.obj [(("auth"), authDict initialAuthState)]))) rfl

/-- C10: if the in-memory state is already authenticated, `login` — with
any flags, tenant, SDK outcome and file state — prints the notice and
returns at once, leaving the state and the file untouched. -/
theorem C10_claim (tenant : Option String) (use_device_code demo : Bool) (az : AzOutcome)
    (st : AuthState) (file : Option String) (mkdirFails readFails writeFails : Bool)
    (h : jsonTruthy (is_authenticated st) = true) :
    login tenant use_device_code demo az st file mkdirFails readFails writeFails
      = Except.ok ([OutMsg.already_authenticated], st, file) := by
  simp [login, h]

/-- C10 witness: an authenticated state with every flag exercised off. -/
theorem C10_claim_witness :
    login none false false AzOutcome.no_sdk
        { initialAuthState with is_authenticated := Json.bool true } none false false false
      = Except.ok ([OutMsg.already_authenticated],
          { initialAuthState with is_authenticated := Json.bool true }, none) :=
  C10_claim none false false AzOutcome.no_sdk
    { initialAuthState with is_authenticated := Json.bool true } none false false false rfl

/-- The pad counter resets on data characters: an interior `=` does not let
a later short group terminate, so this token's payload is a decode error
(`binascii.Error` in the program) and yields no claims. -/
theorem parse_jwt_token_interior_pad : parse_jwt_token ("h.e3=0NIA.s") = none := by
  decide
